import Mathlib

/-!
Job control of the tiny shell `tsh` (src/tsh.c)

A shallow embedding of the job list, the SIGCHLD handler, the foreground wait,
the `bg`/`fg` built-in and the parent side of `eval`, followed by theorems about them.

Conventions of the embedding.

* `jobs[MAXJOBS]` is a `List job_t` holding the slots in index order; a loop
  `for (i = 0; i < MAXJOBS; i++)` over the array is a recursion over that list.
  Statements that depend on the capacity carry `jobs.length = MAXJOBS`.
* C `int` / `pid_t` values are `Int`; a C string is a `String` (the bytes before the NUL).
* A `struct job_t *` is the index of the slot it points to, `none` for `NULL`.
* Text written with `printf` is returned as a `String`.
* A function whose C body can run into undefined behaviour (a write outside an array,
  a dereference of `NULL`) returns an `Option`; `none` is that undefined behaviour.
* Command lines are read by `fgets(cmdline, MAXLINE, stdin)`, so they fit the buffers of
  `MAXLINE` bytes they are copied into (`cmdline` of a job, the local copies of `parseline`
  and `pipe_tokenizer`); these copies are plain values.
* What the kernel contributes (the value `fork` returns, the pending child events that
  `waitpid` reports, the answers of `getpgid`) is an argument of the function that uses it.
-/

namespace Tsh

/-! ## Constants -/

/-- Max line size. -/
def MAXLINE : Nat := 1024
/-- Max args on a command line. -/
def MAXARGS : Nat := 128
/-- Max jobs at any point in time. -/
def MAXJOBS : Nat := 16

/-- Job state: undefined. -/
def UNDEF : Int := 0
/-- Job state: running in foreground. -/
def FG : Int := 1
/-- Job state: running in background. -/
def BG : Int := 2
/-- Job state: stopped. -/
def ST : Int := 3

/-- Signal numbers of `<signal.h>` on Linux (x86 / ARM), the values the kernel reports. -/
def SIGTSTP : Int := 20
/-- Signal number of SIGCONT on Linux (x86 / ARM). -/
def SIGCONT : Int := 18

/-! ## The job list -/

/-- Per-job data (`struct job_t`). -/
structure job_t where
  pid : Int
  jid : Int
  state : Int
  cmdline : String
deriving DecidableEq, Repr

/-- The `%d` conversion of `printf`. -/
def fmt_d (n : Int) : String := toString n

/-- Clear the entries in a job struct (`clearjob`). -/
def clearjob (_job : job_t) : job_t := ⟨0, 0, UNDEF, ""⟩

/-- Clear every slot of the job list (`initjobs`). -/
def initjobs (jobs : List job_t) : List job_t := jobs.map clearjob

/-- First loop of `freejid`: `if (jobs[i].jid != 0) taken[jobs[i].jid] = 1;` for every slot.
`taken` has `MAXJOBS + 1` cells; an index outside it is an out-of-bounds write (`none`). -/
def freejid_mark : List job_t → List Bool → Option (List Bool)
  | [], taken => some taken
  | j :: rest, taken =>
    if j.jid ≠ 0 then
      if 0 ≤ j.jid ∧ j.jid.toNat < taken.length then
        freejid_mark rest (taken.set j.jid.toNat true)
      else none
    else freejid_mark rest taken

/-- Second loop of `freejid`: `for (i = 1; i <= MAXJOBS; i++) if (!taken[i]) return i;`
followed by `return 0`. The arguments are the current `i` and the number of iterations left. -/
def freejid_scan (taken : List Bool) : Nat → Nat → Int
  | _, 0 => 0
  | i, n + 1 => if taken.getD i false = false then (i : Int) else freejid_scan taken (i + 1) n

/-- Returns smallest free job ID (`freejid`). -/
def freejid (jobs : List job_t) : Option Int :=
  match freejid_mark jobs (List.replicate (MAXJOBS + 1) false) with
  | none => none
  | some taken => some (freejid_scan taken 1 MAXJOBS)

/-- The slot loop of `addjob`: the first slot with `pid == 0` receives the new job.
`none` when the loop runs off the end. -/
def addjob_loop (pid state free : Int) (cmdline : String) : List job_t → Option (List job_t)
  | [] => none
  | j :: rest =>
    if j.pid = 0 then some (⟨pid, free, state, cmdline⟩ :: rest)
    else (addjob_loop pid state free cmdline rest).map (fun r => j :: r)

/-- Add a job to the job list (`addjob`). Result: return value, job list, text printed.
`verbose` is the global flag set by `-v`. -/
def addjob (verbose : Bool) (jobs : List job_t) (pid state : Int) (cmdline : String) :
    Option (Int × List job_t × String) :=
  if pid < 1 then some (0, jobs, "")
  else
    match freejid jobs with
    | none => none
    | some free =>
      if free = 0 then some (0, jobs, "Tried to create too many jobs\n")
      else
        match addjob_loop pid state free cmdline jobs with
        | some jobs' =>
          some (1, jobs',
            if verbose then
              "Added job [" ++ fmt_d free ++ "] " ++ fmt_d pid ++ " " ++ cmdline ++ "\n"
            else "")
        | none => some (0, jobs, "")

/-- The slot loop of `deletejob`: the first slot with `jobs[i].pid == pid` is cleared.
`none` when no slot matches. -/
def deletejob_loop (pid : Int) : List job_t → Option (List job_t)
  | [] => none
  | j :: rest =>
    if j.pid = pid then some (clearjob j :: rest)
    else (deletejob_loop pid rest).map (fun r => j :: r)

/-- Delete a job whose PID=pid from the job list (`deletejob`). Result: return value, job list. -/
def deletejob (jobs : List job_t) (pid : Int) : Int × List job_t :=
  if pid < 1 then (0, jobs)
  else
    match deletejob_loop pid jobs with
    | some jobs' => (1, jobs')
    | none => (0, jobs)

/-- Return PID of current foreground job, 0 if no such job (`fgpid`). -/
def fgpid : List job_t → Int
  | [] => 0
  | j :: rest => if j.state = FG then j.pid else fgpid rest

/-- Index of the first slot satisfying `p`: the search loop shared by `getjobpid`,
`getjobjid`. -/
def find_slot (p : job_t → Bool) : List job_t → Option Nat
  | [] => none
  | j :: rest => if p j then some 0 else (find_slot p rest).map (fun i => i + 1)

/-- Find a job (by PID) on the job list (`getjobpid`). -/
def getjobpid (jobs : List job_t) (pid : Int) : Option Nat :=
  if pid < 1 then none else find_slot (fun j => decide (j.pid = pid)) jobs

/-- Find a job (by JID) on the job list (`getjobjid`). -/
def getjobjid (jobs : List job_t) (jid : Int) : Option Nat :=
  if jid < 1 then none else find_slot (fun j => decide (j.jid = jid)) jobs

/-- Print the job list (`listjobs`); `i` is the index of the first slot of the list. -/
def listjobs_from : Nat → List job_t → String
  | _, [] => ""
  | i, j :: rest =>
    (if j.pid ≠ 0 then
      "[" ++ fmt_d j.jid ++ "] (" ++ fmt_d j.pid ++ ") " ++
      (if j.state = BG then "Running "
       else if j.state = FG then "Foreground "
       else if j.state = ST then "Stopped "
       else "listjobs: Internal error: job[" ++ fmt_d i ++ "].state=" ++ fmt_d j.state ++ " ") ++
      j.cmdline
    else "") ++ listjobs_from (i + 1) rest

/-- Print the job list (`listjobs`). -/
def listjobs (jobs : List job_t) : String := listjobs_from 0 jobs

/-- The pointer write `job->state = s`. -/
def set_state (jobs : List job_t) (i : Nat) (s : Int) : List job_t :=
  match jobs[i]? with
  | some j => jobs.set i ⟨j.pid, j.jid, s, j.cmdline⟩
  | none => jobs

/-- The dereference `*job` of a job pointer; `none` for `NULL`. -/
def deref (jobs : List job_t) (job : Option Nat) : Option job_t :=
  match job with
  | none => none
  | some i => jobs[i]?

/-! ## The SIGCHLD handler -/

/-- The child status that `waitpid` stores in `status`, as the `WIF...` tests classify it. -/
inductive wstatus where
  | exited (code : Int)
  | signaled (sig : Int)
  | stopped (sig : Int)
  | continued
deriving DecidableEq, Repr

/-- The status test `WIFSTOPPED(status)`. -/
def WIFSTOPPED : wstatus → Bool
  | .stopped _ => true
  | _ => false

/-- The status test `WIFCONTINUED(status)`. -/
def WIFCONTINUED : wstatus → Bool
  | .continued => true
  | _ => false

/-- The status test `WIFEXITED(status)`. -/
def WIFEXITED : wstatus → Bool
  | .exited _ => true
  | _ => false

/-- The value `WTERMSIG(status)`: the terminating signal of a signalled child (the handler
evaluates it for no other status). -/
def WTERMSIG : wstatus → Int
  | .signaled sig => sig
  | _ => 0

/-- The value `WSTOPSIG(status)`: the stop signal the kernel reports for a stopped child. -/
def WSTOPSIG : wstatus → Int
  | .stopped sig => sig
  | _ => 0

/-- One pending child status change: the pid and status that the next
`waitpid(-1, &status, WNOHANG | WUNTRACED | WCONTINUED)` call returns. -/
abbrev child_event := Int × wstatus

/-- The SIGCHLD handler (`sigchld_handler`), run on the list of pending child events.
`waitpid` returns 0 (or -1) when nothing is pending, which ends the `while`; otherwise it
consumes the first pending event. Every path through the body of the `while` ends in
`return`, so the body runs at most once per invocation.
Result: job list, text printed, events still pending. -/
def sigchld_handler (jobs : List job_t) (pending : List child_event) :
    Option (List job_t × String × List child_event) :=
  match pending with
  | [] => some (jobs, "", [])
  | (reapedPID, status) :: rest =>
    if reapedPID > 0 then
      let job := getjobpid jobs reapedPID
      if WIFSTOPPED status then
        match job, deref jobs job with
        | some i, some j =>
          some (set_state jobs i ST,
            "Job [" ++ fmt_d j.jid ++ "] (" ++ fmt_d j.pid ++ ") stopped by signal " ++
              fmt_d SIGTSTP ++ "\n", rest)
        | _, _ => none
      else if WIFCONTINUED status then some (jobs, "", rest)
      else if !WIFEXITED status then
        match deref jobs job with
        | some j =>
          some ((deletejob jobs reapedPID).2,
            "Job [" ++ fmt_d j.jid ++ "] (" ++ fmt_d j.pid ++ ") terminated by signal " ++
              fmt_d (WTERMSIG status) ++ "\n", rest)
        | none => none
      else some ((deletejob jobs reapedPID).2, "", rest)
    else some (jobs, "", rest)

/-- The update of the job list that the reaper owes to one child event: a stopped child's job
becomes Stopped, a continued child changes nothing, an exited or signalled child's job is
deleted. This is one pass through the body of the `while` of `sigchld_handler`. -/
def reap_one (jobs : List job_t) (ev : child_event) : Option (List job_t × String) :=
  match sigchld_handler jobs [ev] with
  | some (jobs', out, _) => some (jobs', out)
  | none => none

/-- The per-event update applied to each event of a sequence in turn. -/
def reap_all : List job_t → List child_event → Option (List job_t × String)
  | jobs, [] => some (jobs, "")
  | jobs, ev :: rest =>
    match reap_one jobs ev with
    | none => none
    | some (jobs', out) =>
      match reap_all jobs' rest with
      | none => none
      | some (jobs'', out') => some (jobs'', out ++ out')

/-! ## The foreground wait -/

/-- The entry of `waitfg(pid)`: `job = getjobpid(jobs, pid)`, `fgPG = fgpid(jobs)` and the test
`pidPG == fgPG`, where `pidPG` is what `getpgid(pid)` returned.
Result: `job`, `fgPG`, whether the `while` is entered. -/
def waitfg_enter (jobs : List job_t) (pid pidPG : Int) : Option Nat × Int × Bool :=
  (getjobpid jobs pid, fgpid jobs, decide (pidPG = fgpid jobs))

/-- The test `pidPG != fgPG || job->state != 1` made after `sigsuspend` returned, `pidPG` being
the fresh answer of `getpgid(pid)`; `true` ends the wait. `job->state` is read only when
`pidPG == fgPG`. -/
def waitfg_done (jobs : List job_t) (job : Option Nat) (fgPG pidPG : Int) : Option Bool :=
  if pidPG ≠ fgPG then some true
  else
    match deref jobs job with
    | none => none
    | some j => some (decide (j.state ≠ 1))

/-- One return of `sigsuspend`: the child events the SIGCHLD handler handled while the shell
was suspended (one event per invocation of the handler), and what `getpgid(pid)` answers
afterwards. -/
structure wakeup where
  events : List child_event
  pidPG : Int
deriving DecidableEq, Repr

/-- How a call of `waitfg` ends for a given sequence of wake-ups. -/
inductive wait_outcome where
  | returned (jobs : List job_t) (out : String)
  | suspended (jobs : List job_t) (out : String)
deriving DecidableEq, Repr

/-- The `while (inForeground)` loop of `waitfg`. When no wake-up is left the shell stays in
`sigsuspend`. -/
def waitfg_loop (job : Option Nat) (fgPG : Int) :
    List job_t → String → List wakeup → Option wait_outcome
  | jobs, out, [] => some (.suspended jobs out)
  | jobs, out, w :: rest =>
    match reap_all jobs w.events with
    | none => none
    | some (jobs', out') =>
      match waitfg_done jobs' job fgPG w.pidPG with
      | none => none
      | some true => some (.returned jobs' (out ++ out'))
      | some false => waitfg_loop job fgPG jobs' (out ++ out') rest

/-- Block until process pid is no longer the foreground process (`waitfg`). `pidPG` is the
answer of the first `getpgid(pid)`. -/
def waitfg (jobs : List job_t) (pid pidPG : Int) (wakeups : List wakeup) : Option wait_outcome :=
  match waitfg_enter jobs pid pidPG with
  | (job, fgPG, true) => waitfg_loop job fgPG jobs "" wakeups
  | (_, _, false) => some (.returned jobs "")

/-! ## The `bg` and `fg` built-ins -/

/-- The function `isspace` in the C locale. -/
def isspace (c : Char) : Bool :=
  c.toNat = 32 || (9 ≤ c.toNat && c.toNat ≤ 13)

/-- Value of the leading run of decimal digits, continuing from `acc`. -/
def digits_value : Nat → List Char → Nat
  | acc, [] => acc
  | acc, c :: rest =>
    if c.isDigit then digits_value (10 * acc + (c.toNat - 48)) rest else acc

/-- The call `strtol(s, NULL, 10)` with a 64-bit `long`: leading white space, an optional
sign, then decimal digits; 0 when there is no digit, clamped to `LONG_MAX` / `LONG_MIN`. -/
def strtol (s : List Char) : Int :=
  let s1 := s.dropWhile isspace
  let neg := decide (s1.head? = some '-')
  let s2 := if s1.head? = some '-' ∨ s1.head? = some '+' then s1.tail else s1
  let v : Int := digits_value 0 s2
  if neg then max (-v) (-(2 ^ 63)) else min v (2 ^ 63 - 1)

/-- Conversion of a `long` to a 32-bit `int` (`int jid = strtol(...)`, `pid_t pid = strtol(...)`):
reduction modulo 2^32 into the signed range. -/
def long_to_int (n : Int) : Int := (n + 2 ^ 31) % 2 ^ 32 - 2 ^ 31

/-- What a call of `do_bgfg` did: the job list, the text printed, the `kill(target, sig)` calls
made, and the argument of the call of `waitfg` it ends with, if any. -/
structure bgfg_result where
  jobs : List job_t
  out : String
  kills : List (Int × Int)
  wait : Option Int
deriving DecidableEq, Repr

/-- The second half of `do_bgfg`, from `if(jobfound != NULL)` on. -/
def do_bgfg_found (jobs : List job_t) (cmd arg : String) (jobfound : Option Nat) :
    Option bgfg_result :=
  match jobfound with
  | some i =>
    match jobs[i]? with
    | none => none
    | some j =>
      if cmd = "bg" then
        some ⟨set_state jobs i BG,
          "[" ++ fmt_d j.jid ++ "] (" ++ fmt_d j.pid ++ ") " ++ j.cmdline,
          [(-j.pid, SIGCONT)], none⟩
      else
        some ⟨set_state jobs i FG, "", [(-j.pid, SIGCONT)], some j.pid⟩
  | none =>
    if arg.data.head? = some '%' then some ⟨jobs, arg ++ ": No such job\n", [], none⟩
    else some ⟨jobs, "(" ++ arg ++ "): No such process\n", [], none⟩

/-- Execute the builtin bg and fg commands (`do_bgfg`). `argv` is the argument vector up to its
terminating `NULL`; `argv[0]` is never `NULL` at the call sites. -/
def do_bgfg (jobs : List job_t) (argv : List String) : Option bgfg_result :=
  match argv with
  | [] => none
  | cmd :: [] => some ⟨jobs, cmd ++ " command requires PID or %jid argument\n", [], none⟩
  | cmd :: arg :: _ =>
    if arg.data.head? = some '%' then
      let jid := long_to_int (strtol arg.data.tail)
      if jid = 0 then some ⟨jobs, cmd ++ ": argument must be a PID or a %jid\n", [], none⟩
      else do_bgfg_found jobs cmd arg (getjobjid jobs jid)
    else
      let pid := long_to_int (strtol arg.data)
      if pid = 0 then some ⟨jobs, cmd ++ ": argument must be a PID or a %jid\n", [], none⟩
      else do_bgfg_found jobs cmd arg (getjobpid jobs pid)

/-! ## The command line -/

/-- The single quote character. -/
def QUOTE : Char := Char.ofNat 39

/-- The step `delim = strchr(buf, c); *delim = 0; buf = delim + 1`: the text before the first
`c` and the text after it; `none` when `strchr` returns `NULL`. -/
def split_at (c : Char) : List Char → Option (List Char × List Char)
  | [] => none
  | x :: rest =>
    if x = c then some ([], rest)
    else
      match split_at c rest with
      | none => none
      | some (tok, after) => some (x :: tok, after)

/-- The loop `while (*buf && (*buf == ' ')) buf++`. -/
def skip_spaces : List Char → List Char
  | [] => []
  | x :: rest => if x = ' ' then skip_spaces rest else x :: rest

/-- The `while (delim)` loop of `parseline`, together with the computation of `delim` that
precedes each test; `buf` is the unread part of the buffer, leading spaces skipped. The first
argument bounds the number of iterations. -/
def parseline_loop : Nat → List Char → List (List Char)
  | 0, _ => []
  | fuel + 1, buf =>
    let quoted := decide (buf.head? = some QUOTE)
    match split_at (if quoted then QUOTE else ' ') (if quoted then buf.tail else buf) with
    | none => []
    | some (tok, after) => tok :: parseline_loop fuel (skip_spaces after)

/-- Parse the command line and build the argv array (`parseline`). The last character of the
line is overwritten with a space. `none`: the line is empty (write at `buf[-1]`) or has
`MAXARGS` arguments or more (write beyond `argv[MAXARGS - 1]`). -/
def parseline (cmdline : String) : Option (List String) :=
  match cmdline.data with
  | [] => none
  | c :: cs =>
    let buf := (c :: cs).dropLast ++ [' ']
    let toks := parseline_loop (buf.length + 1) (skip_spaces buf)
    if toks.length < MAXARGS then some (toks.map String.mk) else none

/-- The tokens `strtok` yields for a one-character delimiter set: the maximal non-empty runs of
other characters. `cur` is the run being read. -/
def strtok_all (d : Char) : List Char → List Char → List (List Char)
  | cur, [] => if cur = [] then [] else [cur]
  | cur, c :: rest =>
    if c = d then
      if cur = [] then strtok_all d [] rest else cur :: strtok_all d [] rest
    else strtok_all d (cur ++ [c]) rest

/-- Split the command line at every `|` (`pipe_tokenizer`): the array `output`. -/
def pipe_tokenizer (cmdline : String) : List String :=
  (strtok_all '|' [] cmdline.data).map String.mk

/-! ## Evaluation of a command line -/

/-- What the shell process did while evaluating one command line: the job list, the text
printed, the `kill` calls made, the argument of the call of `waitfg` it ends with (if any) and
the argument of `exit` (if the shell exits). -/
structure eval_result where
  jobs : List job_t
  out : String
  kills : List (Int × Int)
  wait : Option Int
  exit_code : Option Int
deriving DecidableEq, Repr

/-- Execute a built-in command (`builtin_cmd`). -/
def builtin_cmd (jobs : List job_t) (argv : List String) : Option eval_result :=
  match argv with
  | [] => none
  | cmd :: _ =>
    if cmd = "quit" then some ⟨jobs, "", [], none, some 1⟩
    else if cmd = "fg" ∨ cmd = "bg" then
      match do_bgfg jobs argv with
      | none => none
      | some r => some ⟨r.jobs, r.out, r.kills, r.wait, none⟩
    else if cmd = "jobs" then some ⟨jobs, listjobs jobs, [], none, none⟩
    else some ⟨jobs, "", [], none, none⟩

/-- The text `printf(" %s", argv[i])` writes for `i = 0 .. argc - 1`. -/
def print_argv : List String → String
  | [] => ""
  | a :: rest => " " ++ a ++ print_argv rest

/-- Evaluate the command line that the user has just typed in (`eval`), as executed by the shell
process itself: `pid` is the value `fork` returns there (the child's pid) when the line is not
a built-in. The redirection scan of `argv` and the forked child's branch leave the shell's job
list and output untouched and are not part of the result. `none` also covers more than
`MAXARGS` pipeline segments (write beyond `pipedarg[MAXARGS - 1]`). -/
def eval (verbose : Bool) (jobs : List job_t) (cmdline : String) (pid : Int) :
    Option eval_result :=
  match parseline cmdline with
  | none => none
  | some argv =>
    match argv.getLast? with
    | none => some ⟨jobs, "", [], none, none⟩
    | some last =>
      if argv.head? = some "quit" ∨ argv.head? = some "jobs" ∨ argv.head? = some "fg" ∨
          argv.head? = some "bg" then
        builtin_cmd jobs argv
      else if MAXARGS < (pipe_tokenizer cmdline).length then none
      else if last ≠ "&" then
        match addjob verbose jobs pid FG cmdline with
        | none => none
        | some (_, jobs', out) => some ⟨jobs', out, [], some pid, none⟩
      else
        match addjob verbose jobs pid BG cmdline with
        | none => none
        | some (_, jobs', out) =>
          match deref jobs' (getjobpid jobs' pid) with
          | none => none
          | some j =>
            some ⟨jobs',
              out ++ "[" ++ fmt_d j.jid ++ "] (" ++ fmt_d pid ++ ")" ++ print_argv argv ++ "\n",
              [], none, none⟩

/-! ## Example data -/

/-- A job list of 16 slots holding jobs 1 and 3. -/
def demo_jobs : List job_t :=
  [⟨500, 1, BG, "/bin/sleep 9 &\n"⟩, ⟨0, 0, UNDEF, ""⟩, ⟨502, 3, ST, "/bin/cat\n"⟩] ++
    List.replicate 13 ⟨0, 0, UNDEF, ""⟩

/-! ## Well-formed job lists -/

/-- A slot is live when it holds a job: its pid is not 0. -/
abbrev live (j : job_t) : Prop := j.pid ≠ 0

/-- No two live entries share a pid. -/
abbrev distinct_pids (jobs : List job_t) : Prop :=
  jobs.Pairwise (fun a b => live a → live b → a.pid ≠ b.pid)

/-- No two live entries share a job id. -/
abbrev distinct_jids (jobs : List job_t) : Prop :=
  jobs.Pairwise (fun a b => live a → live b → a.jid ≠ b.jid)

/-- The empty slot that `clearjob` leaves. -/
def empty_slot : job_t := ⟨0, 0, UNDEF, ""⟩

/-- The well-formed job lists: `MAXJOBS` slots, a slot has pid 0 exactly when it has jid 0,
the job ids of live entries lie in `1..16` and are distinct. -/
abbrev wf_jobs (jobs : List job_t) : Prop :=
  jobs.length = MAXJOBS ∧ (∀ j ∈ jobs, j.pid = 0 ↔ j.jid = 0) ∧
    (∀ j ∈ jobs, live j → 1 ≤ j.jid ∧ j.jid ≤ 16) ∧ distinct_jids jobs

/-- All slots are occupied. -/
abbrev full (jobs : List job_t) : Prop := ∀ j ∈ jobs, live j

/-- The job lists reachable from the one `initjobs` produces through calls of `addjob`, each
with a pid that no entry holds at the time of the call, and calls of `deletejob`. -/
inductive table_reachable : List job_t → Prop where
  | init (mem : List job_t) (hlen : mem.length = MAXJOBS) : table_reachable (initjobs mem)
  | add (verbose : Bool) (jobs jobs' : List job_t) (pid state r : Int) (cmdline out : String)
      (hreach : table_reachable jobs) (hfresh : ∀ j ∈ jobs, j.pid ≠ pid)
      (hadd : addjob verbose jobs pid state cmdline = some (r, jobs', out)) :
      table_reachable jobs'
  | del (jobs : List job_t) (pid : Int) (hreach : table_reachable jobs) :
      table_reachable (deletejob jobs pid).2

/-- The job list after `initjobs` and one `addjob`. -/
def demo_reached : List job_t :=
  (⟨500, 1, BG, "/bin/sleep 9 &\n"⟩ : job_t) :: List.replicate 15 empty_slot

/-- A job list with two background jobs and a stopped one. -/
def demo_two : List job_t :=
  [⟨500, 1, BG, "/bin/sleep 9 &\n"⟩, ⟨501, 2, BG, "/bin/sleep 8 &\n"⟩, ⟨502, 3, FG, "/bin/cat\n"⟩] ++
    List.replicate 13 empty_slot

/-- A well-formed job list whose 16 slots are all occupied: pids 500..515, job ids 1..16. -/
def full_jobs : List job_t :=
  (List.range 16).map (fun i => ⟨500 + (i : Int), (i : Int) + 1, BG, "/bin/sleep 9 &\n"⟩)

/-! ## Command lines made of plain tokens -/

/-- The tokens, each followed by one space. -/
def spaced : List (List Char) → List Char
  | [] => []
  | t :: rest => t ++ ' ' :: spaced rest

/-- A plain token: not empty, without a space, not starting with a single quote. -/
abbrev plain_token (t : String) : Prop :=
  t.data ≠ [] ∧ ' ' ∉ t.data ∧ t.data.head? ≠ some QUOTE

/-- The command line that consists of the tokens separated by single spaces, with no space
before the first or after the last one, and the terminating newline. -/
def line_of (toks : List String) : String :=
  String.mk ((spaced (toks.map (fun t => t.data))).dropLast ++ [Char.ofNat 10])

/-- The first word of the argument vector is none of the built-in commands. -/
abbrev not_builtin (argv : List String) : Prop :=
  argv.head? ≠ some "quit" ∧ argv.head? ≠ some "jobs" ∧ argv.head? ≠ some "fg" ∧
    argv.head? ≠ some "bg"

/-! ## The shell as a transition system -/

/-- Where the shell process is, as far as the job list is concerned: between two command lines
of the read/eval loop; about to call `waitfg(pid)` (after the foreground launch or `fg`, the
signal mask restored); or inside the `while` of `waitfg(pid)`, suspended in `sigsuspend`, with
the values of its locals `job` and `fgPG`. SIGCHLD is deliverable at all three. -/
inductive shell_at where
  | repl
  | call_waitfg (pid : Int)
  | in_waitfg (pid : Int) (job : Option Nat) (fgPG : Int)
deriving DecidableEq, Repr

/-- The state of the shell: the job list and the place of control. -/
structure shell where
  jobs : List job_t
  loc : shell_at
deriving DecidableEq, Repr

/-- What `getpgid(pid)` answers for a child launched by `eval` that stays in its process
group. The child is put into the
process group `pid` before `waitfg` runs (`setpgid(pid, pid)` in the parent, `setpgid(0, 0)` in
the child), so the answer is `pid` while the child exists. It is -1 once the child has been
reaped; only the SIGCHLD handler reaps, and it deletes the job as it does, so no entry holds
`pid` then. -/
def getpgid_answer (jobs : List job_t) (pid pg : Int) : Prop :=
  pg = pid ∨ (pg = -1 ∧ ∀ j ∈ jobs, j.pid ≠ pid)

/-- Where control goes after evaluating a command line. -/
def after_eval (r : eval_result) : shell_at :=
  match r.wait with
  | some pid => .call_waitfg pid
  | none => .repl

/-- Where control goes from the entry of `waitfg(pid)`. -/
def after_enter (jobs : List job_t) (pid pg : Int) : shell_at :=
  match waitfg_enter jobs pid pg with
  | (job, fgPG, true) => .in_waitfg pid job fgPG
  | (_, _, false) => .repl

/-- The first half of `do_bgfg` for an argument: the number is read and, unless it is 0 (the
syntax-error exit, `none`), the job is looked up with `getjobjid` or `getjobpid`. The result is
the pointer `jobfound`. -/
def do_bgfg_lookup (jobs : List job_t) (arg : String) : Option (Option Nat) :=
  if arg.data.head? = some '%' then
    if long_to_int (strtol arg.data.tail) = 0 then none
    else some (getjobjid jobs (long_to_int (strtol arg.data.tail)))
  else
    if long_to_int (strtol arg.data) = 0 then none
    else some (getjobpid jobs (long_to_int (strtol arg.data)))

/-- Where control goes after `do_bgfg`. -/
def after_bgfg (r : bgfg_result) : shell_at :=
  match r.wait with
  | some pid => .call_waitfg pid
  | none => .repl

/-- The steps of the shell.
* `reap`: SIGCHLD is delivered and `sigchld_handler` runs on the pending child events.
* `command`: at the read/eval loop a command line is evaluated by `eval` without a signal
  arriving meanwhile: a foreground or background launch (`fork` returns a positive pid that no
  job holds; all signals are blocked from before `fork` until after `addjob`), `fg`, `bg`,
  `jobs` or an empty line; `quit` ends the shell and is no step.
* `bgfg_reaped`: `fg` or `bg` is evaluated and SIGCHLD is delivered inside `do_bgfg`, after the
  lookup of the job and before the rest of the function. `eval` calls `builtin_cmd` before any
  `sigprocmask`, so SIGCHLD is not blocked there; the handler runs once for each of `events`,
  and the rest of `do_bgfg` works on the job list it leaves, through the pointer found before.
* `enter`: `waitfg(pid)` is called and makes its first test; `pg` is what `getpgid(pid)`
  answers.
* `wake`: `sigsuspend` returns inside `waitfg` and the loop test is made; `pg` is what
  `getpgid(pid)` answers. -/
inductive shell_step : shell → shell → Prop where
  | reap (s : shell) (pending rest : List child_event) (jobs' : List job_t) (out : String)
      (h : sigchld_handler s.jobs pending = some (jobs', out, rest)) :
      shell_step s ⟨jobs', s.loc⟩
  | command (s : shell) (verbose : Bool) (cmdline : String) (pid : Int) (r : eval_result)
      (hloc : s.loc = .repl) (hpid : 1 ≤ pid) (hfresh : ∀ j ∈ s.jobs, j.pid ≠ pid)
      (h : eval verbose s.jobs cmdline pid = some r) (hrun : r.exit_code = none) :
      shell_step s ⟨r.jobs, after_eval r⟩
  | bgfg_reaped (s : shell) (cmdline cmd arg : String) (more : List String)
      (events : List child_event) (jobfound : Option Nat) (jobs1 : List job_t)
      (out1 : String) (r : bgfg_result)
      (hloc : s.loc = .repl) (hparse : parseline cmdline = some (cmd :: arg :: more))
      (hcmd : cmd = "fg" ∨ cmd = "bg")
      (hlook : do_bgfg_lookup s.jobs arg = some jobfound)
      (hreap : reap_all s.jobs events = some (jobs1, out1))
      (h : do_bgfg_found jobs1 cmd arg jobfound = some r) :
      shell_step s ⟨r.jobs, after_bgfg r⟩
  | enter (s : shell) (pid pg : Int) (hloc : s.loc = .call_waitfg pid) :
      shell_step s ⟨s.jobs, after_enter s.jobs pid pg⟩
  | wake (s : shell) (pid fgPG pg : Int) (job : Option Nat) (done : Bool)
      (hloc : s.loc = .in_waitfg pid job fgPG)
      (h : waitfg_done s.jobs job fgPG pg = some done) :
      shell_step s ⟨s.jobs, if done then .repl else .in_waitfg pid job fgPG⟩

/-- The states reachable from the start of the read/eval loop with the job list `initjobs`
produces. Every step of `shell_step` is a behaviour of the program, so a state shown
reachable here is one the shell can get into. -/
inductive shell_reachable : shell → Prop where
  | start (mem : List job_t) (hlen : mem.length = MAXJOBS) :
      shell_reachable ⟨initjobs mem, .repl⟩
  | next (s t : shell) (hs : shell_reachable s) (hstep : shell_step s t) : shell_reachable t

/-- The invariant of the job list that runs without a signal inside `do_bgfg` maintain (see
`eval_inv`, `sigchld_handler_quiet`): well-formed, distinct live pids,
live pids positive, and a foreground entry is live. -/
abbrev table_inv (jobs : List job_t) : Prop :=
  wf_jobs jobs ∧ distinct_pids jobs ∧ (∀ j ∈ jobs, live j → 1 ≤ j.pid) ∧
    (∀ j ∈ jobs, j.state = FG → live j)

/-- Every foreground entry has the given pid. -/
abbrev fg_only (jobs : List job_t) (pid : Int) : Prop := ∀ j ∈ jobs, j.state = FG → j.pid = pid

/-- No entry is in the foreground. -/
abbrev no_fg (jobs : List job_t) : Prop := ∀ j ∈ jobs, j.state ≠ FG

/-- The pointer `job` of `waitfg(pid)` points to every slot that holds `pid`. -/
abbrev job_points (jobs : List job_t) (pid : Int) (job : Option Nat) : Prop :=
  ∀ i, ∀ hi : i < jobs.length, jobs[i].pid = pid → job = some i

/-- What holds at each place of control. -/
def loc_inv (jobs : List job_t) : shell_at → Prop
  | .repl => no_fg jobs
  | .call_waitfg pid => 1 ≤ pid ∧ fg_only jobs pid
  | .in_waitfg pid job fgPG => 1 ≤ pid ∧ fg_only jobs pid ∧ fgPG = pid ∧ job_points jobs pid job

/-- A change of the job list that puts no job into the foreground: nothing, a state other than
FG written to a live entry, or a slot cleared. -/
def quiet_change (jobs jobs' : List job_t) : Prop :=
  jobs' = jobs ∨
  (∃ i s, ∃ hi : i < jobs.length, live jobs[i] ∧ s ≠ FG ∧ jobs' = set_state jobs i s) ∨
  (∃ i, jobs' = jobs.set i empty_slot)

/-- The job list after the foreground launch of `/bin/sleep 5` with child pid 500. -/
def demo_fg_jobs : List job_t :=
  (⟨500, 1, FG, "/bin/sleep 5\n"⟩ : job_t) :: List.replicate 15 empty_slot

/-- The job list with the background jobs 1 (pid 500) and 2 (pid 501). -/
def race_jobs : List job_t :=
  [⟨500, 1, BG, "/bin/sleep 9 &\n"⟩, ⟨501, 2, BG, "/bin/sleep 8 &\n"⟩] ++
    List.replicate 14 empty_slot

/-- The job list after `fg %1` whose job 1 was reaped inside `do_bgfg`: slot 0 is cleared but
in state FG. -/
def race_ghost : List job_t :=
  [⟨0, 0, FG, ""⟩, ⟨501, 2, BG, "/bin/sleep 8 &\n"⟩] ++ List.replicate 14 empty_slot

/-- The job list after the following `fg %2`. -/
def race_ghost_fg : List job_t :=
  [⟨0, 0, FG, ""⟩, ⟨501, 2, FG, "/bin/sleep 8 &\n"⟩] ++ List.replicate 14 empty_slot

/-- The job list after the following foreground launch of `/bin/cat` with child pid 502: the
jobs 1 and 2 are both in state FG. -/
def race_two_fg : List job_t :=
  [⟨502, 1, FG, "/bin/cat\n"⟩, ⟨501, 2, FG, "/bin/sleep 8 &\n"⟩] ++
    List.replicate 14 empty_slot

/-! ## Arguments of `bg` and `fg` -/

/-- A non-empty string of decimal digits. -/
abbrev is_decimal (s : List Char) : Prop := s ≠ [] ∧ ∀ c ∈ s, c.isDigit = true

/-- The number that a string of decimal digits denotes. -/
def decimal_value (s : List Char) : Nat :=
  s.foldl (fun acc c => 10 * acc + (c.toNat - 48)) 0

/-- The two argument forms of the specification: a decimal pid (a non-empty string of decimal
digits), or `%` followed by a decimal job id. -/
abbrev spec_bgfg_form (arg : String) : Prop :=
  is_decimal arg.data ∨ (arg.data.head? = some '%' ∧ is_decimal arg.data.tail)

/-- The number `do_bgfg` reads from its argument: `strtol` of the text after a leading `%`, or
of the whole argument, converted to `int`. -/
def bgfg_number (arg : String) : Int :=
  if arg.data.head? = some '%' then long_to_int (strtol arg.data.tail)
  else long_to_int (strtol arg.data)

/-! ## Runs of `waitfg` -/

/-- The answers of `getpgid(pid)` along a run of `waitfg(pid)` are those of the kernel
(`getpgid_answer`): each wake-up's answer, for the job list as the reaper updates of that
wake-up leave it. -/
def wakeups_ok (pid : Int) : List job_t → List wakeup → Prop
  | _, [] => True
  | jobs, w :: rest =>
    match reap_all jobs w.events with
    | none => True
    | some (jobs', _) => getpgid_answer jobs' pid w.pidPG ∧ wakeups_ok pid jobs' rest

/-- The locals `fgPG` and `job` of `waitfg(pid)` fit every foreground entry of the job list:
`fgPG` is `pid` and `job` points to the entry. -/
abbrev fg_points (jobs : List job_t) (pid fgPG : Int) (job : Option Nat) : Prop :=
  ∀ n, ∀ hn : n < jobs.length, jobs[n].state = FG → fgPG = pid ∧ job = some n

/-- A job list with two foreground entries. -/
def demo_two_fg : List job_t :=
  [⟨500, 1, FG, "/bin/cat\n"⟩, ⟨501, 2, FG, "/bin/sleep 9\n"⟩] ++ List.replicate 14 empty_slot

/-- Two wake-ups of `waitfg(500)`: a spurious one, then one after the child was stopped. -/
def demo_wakeups : List wakeup := [⟨[], 500⟩, ⟨[(500, .stopped 20)], 500⟩]

/-! ## Pipelines -/

/-- The copy loop of `pipe_eval` (and of `eval`) that builds `argv_no_redirc`: a token `<` or
`>` is dropped together with the token after it (`i++`); `skip` says that the current token
follows such an operator. -/
def strip_redirs_go : Bool → List String → List String
  | _, [] => []
  | true, _ :: rest => strip_redirs_go false rest
  | false, a :: rest =>
    if a = "<" ∨ a = ">" then strip_redirs_go true rest else a :: strip_redirs_go false rest

/-- The argument vector `argv_no_redirc` built from a parsed argument vector. -/
def strip_redirs (argv : List String) : List String := strip_redirs_go false argv

/-- The stages of `pipe_eval`: for each segment in turn, `parseline` builds the argument vector
and the redirection tokens are stripped; a segment without any token prints
`Incorrect Usage of pipe` and ends `pipe_eval`. Result: the argument vectors passed to `execv`
by the stages forked, in order, and the text printed. -/
def pipe_eval : List String → Option (List (List String) × String)
  | [] => some ([], "")
  | seg :: rest =>
    match parseline seg with
    | none => none
    | some parsed =>
      if parsed.length = 0 then some ([], "Incorrect Usage of pipe\n")
      else
        match pipe_eval rest with
        | none => none
        | some (stages, out) => some (strip_redirs parsed :: stages, out)

/-- The assignment `pipedarg[pipenumber-1][length_of_last-1] = 0` of the background branch of
`eval`: the last character of the last segment is cut off. -/
def chop_last_segment : List String → List String
  | [] => []
  | [seg] => [String.mk seg.data.dropLast]
  | seg :: rest => seg :: chop_last_segment rest

/-- The pipeline part of the forked child of `eval`: when `pipe_tokenizer` yields more than one
segment the child runs `pipe_eval` on the segments, for a background line after cutting the
last character of the last segment. The result is that of `pipe_eval`; a line that is empty, a
built-in or not a pipeline has no stages. -/
def eval_child_pipeline (cmdline : String) : Option (List (List String) × String) :=
  match parseline cmdline with
  | none => none
  | some argv =>
    match argv.getLast? with
    | none => some ([], "")
    | some last =>
      if argv.head? = some "quit" ∨ argv.head? = some "jobs" ∨ argv.head? = some "fg" ∨
          argv.head? = some "bg" then some ([], "")
      else if MAXARGS < (pipe_tokenizer cmdline).length then none
      else if (pipe_tokenizer cmdline).length > 1 then
        if last ≠ "&" then pipe_eval (pipe_tokenizer cmdline)
        else pipe_eval (chop_last_segment (pipe_tokenizer cmdline))
      else some ([], "")

/-- The white-space separated tokens of a text, as the specification words them: the maximal
runs of characters that are not white space. `cur` is the run being read. -/
def spec_tokens_go : List Char → List Char → List (List Char)
  | cur, [] => if cur = [] then [] else [cur]
  | cur, c :: rest =>
    if isspace c then
      if cur = [] then spec_tokens_go [] rest else cur :: spec_tokens_go [] rest
    else spec_tokens_go (cur ++ [c]) rest

/-- The argument vector that the specification gives a pipeline stage: the white-space
separated tokens of the segment with `<`, `>` and their target tokens removed. -/
def spec_stage_argv (segment : String) : List String :=
  strip_redirs ((spec_tokens_go [] segment.data).map String.mk)

/-! ## Theorems -/

/-! ### The job list helpers -/

theorem freejid_mark_some (jobs : List job_t) :
    ∀ taken : List Bool, (∀ j ∈ jobs, 0 ≤ j.jid ∧ j.jid.toNat < taken.length) →
      ∃ taken', freejid_mark jobs taken = some taken' ∧ taken'.length = taken.length ∧
        ∀ n : Nat, 1 ≤ n →
          (taken'.getD n false = true ↔
            (taken.getD n false = true ∨ ∃ j ∈ jobs, j.jid = (n : Int))) := by
  induction jobs with
  | nil =>
    intro taken _
    exact ⟨taken, rfl, rfl, fun n _ => by simp⟩
  | cons j rest ih =>
    intro taken h
    have hj := h j (List.mem_cons_self _ _)
    by_cases hz : j.jid = 0
    · obtain ⟨t', h1, h2, h3⟩ := ih taken (fun x hx => h x (List.mem_cons_of_mem _ hx))
      refine ⟨t', by simp [freejid_mark, hz, h1], h2, fun n hn => ?_⟩
      rw [h3 n hn]
      constructor
      · rintro (h4 | ⟨x, hx, hxn⟩)
        · exact Or.inl h4
        · exact Or.inr ⟨x, List.mem_cons_of_mem _ hx, hxn⟩
      · rintro (h4 | ⟨x, hx, hxn⟩)
        · exact Or.inl h4
        · rcases List.mem_cons.1 hx with rfl | hx
          · omega
          · exact Or.inr ⟨x, hx, hxn⟩
    · obtain ⟨t', h1, h2, h3⟩ := ih (taken.set j.jid.toNat true)
        (fun x hx => by rw [List.length_set]; exact h x (List.mem_cons_of_mem _ hx))
      refine ⟨t', by simp [freejid_mark, hz, hj, h1], by simpa using h2, fun n hn => ?_⟩
      rw [h3 n hn]
      have hset : (taken.set j.jid.toNat true).getD n false = true ↔
          (taken.getD n false = true ∨ j.jid = (n : Int)) := by
        simp only [List.getD_eq_getElem?_getD, List.getElem?_set]
        by_cases hk : j.jid.toNat = n
        · have : j.jid = (n : Int) := by omega
          have hlt : n < taken.length := by omega
          simp [hk, this, hlt]
        · have : j.jid ≠ (n : Int) := by omega
          simp [hk, this]
      rw [hset]
      constructor
      · rintro ((h4 | h4) | ⟨x, hx, hxn⟩)
        · exact Or.inl h4
        · exact Or.inr ⟨j, List.mem_cons_self _ _, h4⟩
        · exact Or.inr ⟨x, List.mem_cons_of_mem _ hx, hxn⟩
      · rintro (h4 | ⟨x, hx, hxn⟩)
        · exact Or.inl (Or.inl h4)
        · rcases List.mem_cons.1 hx with rfl | hx
          · exact Or.inl (Or.inr hxn)
          · exact Or.inr ⟨x, hx, hxn⟩

theorem freejid_scan_spec (taken : List Bool) (n : Nat) :
    ∀ i : Nat, 1 ≤ i →
      (freejid_scan taken i n = 0 ∧ ∀ m, i ≤ m → m < i + n → taken.getD m false = true) ∨
      (∃ k : Nat, freejid_scan taken i n = (k : Int) ∧ i ≤ k ∧ k < i + n ∧
        taken.getD k false = false ∧ ∀ m, i ≤ m → m < k → taken.getD m false = true) := by
  induction n with
  | zero =>
    intro i _
    exact Or.inl ⟨rfl, fun m h1 h2 => by omega⟩
  | succ n ih =>
    intro i hi
    by_cases ht : taken.getD i false = false
    · exact Or.inr ⟨i, by rw [freejid_scan, if_pos ht], le_refl _, by omega, ht,
        fun m h1 h2 => by omega⟩
    · have ht' : taken.getD i false = true := by simpa using ht
      rcases ih (i + 1) (by omega) with ⟨h1, h2⟩ | ⟨k, h1, h2, h3, h4, h5⟩
      · refine Or.inl ⟨by rw [freejid_scan, if_neg ht, h1], fun m hm1 hm2 => ?_⟩
        by_cases hmi : m = i
        · exact hmi ▸ ht'
        · exact h2 m (by omega) (by omega)
      · refine Or.inr ⟨k, by rw [freejid_scan, if_neg ht, h1], by omega, by omega, h4,
          fun m hm1 hm2 => ?_⟩
        by_cases hmi : m = i
        · exact hmi ▸ ht'
        · exact h5 m (by omega) hm2

/-- What `freejid` returns on a job list whose job ids are 0 or in `1..MAXJOBS`: 0 when every
id of `1..MAXJOBS` is in use, the smallest unused one otherwise. -/
theorem freejid_spec (jobs : List job_t)
    (h : ∀ j ∈ jobs, j.jid = 0 ∨ (1 ≤ j.jid ∧ j.jid ≤ 16)) :
    ∃ r, freejid jobs = some r ∧
      ((r = 0 ∧ ∀ m : Int, 1 ≤ m → m ≤ 16 → ∃ j ∈ jobs, j.jid = m) ∨
       (1 ≤ r ∧ r ≤ 16 ∧ (∀ j ∈ jobs, j.jid ≠ r) ∧
          ∀ m : Int, 1 ≤ m → m < r → ∃ j ∈ jobs, j.jid = m)) := by
  obtain ⟨t', h1, _, h3⟩ := freejid_mark_some jobs (List.replicate (MAXJOBS + 1) false)
    (fun j hj => by
      have := h j hj
      simp only [List.length_replicate, MAXJOBS]
      omega)
  have hrep : ∀ n : Nat, (List.replicate (MAXJOBS + 1) false).getD n false = false := by
    intro n
    simp only [List.getD_eq_getElem?_getD, List.getElem?_replicate]
    split <;> rfl
  refine ⟨freejid_scan t' 1 MAXJOBS, by simp [freejid, h1], ?_⟩
  rcases freejid_scan_spec t' MAXJOBS 1 (le_refl _) with ⟨h4, h5⟩ | ⟨k, h4, h5, h6, h7, h8⟩
  · refine Or.inl ⟨h4, fun m hm1 hm2 => ?_⟩
    have := h5 m.toNat (by omega) (by simp only [MAXJOBS]; omega)
    rw [h3 _ (by omega), hrep] at this
    rcases this with h9 | ⟨j, hj, hjm⟩
    · exact absurd h9 (by simp)
    · exact ⟨j, hj, by omega⟩
  · simp only [MAXJOBS] at h6
    refine Or.inr ⟨by omega, by omega, fun j hj hjr => ?_, fun m hm1 hm2 => ?_⟩
    · have : t'.getD k false = true := (h3 k h5).2 (Or.inr ⟨j, hj, by omega⟩)
      rw [h7] at this
      exact absurd this (by simp)
    · have := h8 m.toNat (by omega) (by omega)
      rw [h3 _ (by omega), hrep] at this
      rcases this with h9 | ⟨j, hj, hjm⟩
      · exact absurd h9 (by simp)
      · exact ⟨j, hj, by omega⟩

theorem addjob_loop_some (pid state free : Int) (cmd : String) :
    ∀ jobs jobs' : List job_t, addjob_loop pid state free cmd jobs = some jobs' →
      ∃ i, ∃ hi : i < jobs.length, jobs[i].pid = 0 ∧
        (∀ k, ∀ hk : k < jobs.length, k < i → jobs[k].pid ≠ 0) ∧
        jobs' = jobs.set i ⟨pid, free, state, cmd⟩ := by
  intro jobs
  induction jobs with
  | nil => intro jobs' h; simp [addjob_loop] at h
  | cons j rest ih =>
    intro jobs' h
    by_cases hp : j.pid = 0
    · simp only [addjob_loop, if_pos hp, Option.some.injEq] at h
      exact ⟨0, by simp, by simpa using hp, fun k _ hk => absurd hk (by omega), by simp [← h]⟩
    · simp only [addjob_loop, if_neg hp, Option.map_eq_some'] at h
      obtain ⟨r, hr, rfl⟩ := h
      obtain ⟨i, hi, h1, h2, h3⟩ := ih r hr
      refine ⟨i + 1, by simpa using hi, by simpa using h1, fun k hk hki => ?_, by simp [h3]⟩
      cases k with
      | zero => simpa using hp
      | succ k => simpa using h2 k (by simpa using hk) (by omega)

theorem addjob_loop_none (pid state free : Int) (cmd : String) (jobs : List job_t) :
    addjob_loop pid state free cmd jobs = none ↔ ∀ j ∈ jobs, j.pid ≠ 0 := by
  induction jobs with
  | nil => simp [addjob_loop]
  | cons j rest ih =>
    by_cases hp : j.pid = 0
    · simp [addjob_loop, hp]
    · simp [addjob_loop, hp, ih]

/-- C1 (job-id minimality). On a job list whose job ids are 0 (empty slot) or in `1..16`, a
successful `addjob` with `pid >= 1` writes into a previously empty slot the job id `k` that
`freejid` returns, and `k` is the smallest integer of `1..16` that was not the job id of any
entry before the call. -/
theorem addjob_jid_minimal (verbose : Bool) (jobs jobs' : List job_t) (pid state : Int)
    (cmdline out : String)
    (hjid : ∀ j ∈ jobs, j.jid = 0 ∨ (1 ≤ j.jid ∧ j.jid ≤ 16))
    (hpid : 1 ≤ pid)
    (hadd : addjob verbose jobs pid state cmdline = some (1, jobs', out)) :
    ∃ k, freejid jobs = some k ∧ 1 ≤ k ∧ k ≤ 16 ∧
      (∀ j ∈ jobs, j.jid ≠ k) ∧
      (∀ m : Int, 1 ≤ m → m < k → ∃ j ∈ jobs, j.jid = m) ∧
      ∃ i, ∃ hi : i < jobs.length, jobs[i].pid = 0 ∧
        jobs' = jobs.set i ⟨pid, k, state, cmdline⟩ := by
  obtain ⟨r, hr, hspec⟩ := freejid_spec jobs hjid
  have hp : ¬ pid < 1 := by omega
  simp only [addjob, if_neg hp, hr] at hadd
  by_cases hr0 : r = 0
  · simp [hr0] at hadd
  · rw [if_neg hr0] at hadd
    rcases hspec with ⟨h0, _⟩ | ⟨h1, h2, h3, h4⟩
    · exact absurd h0 hr0
    · cases hl : addjob_loop pid state r cmdline jobs with
      | none => simp [hl] at hadd
      | some js =>
        simp only [hl, Option.some.injEq, Prod.mk.injEq, true_and] at hadd
        obtain ⟨i, hi, h5, _, h7⟩ := addjob_loop_some pid state r cmdline jobs js hl
        exact ⟨r, hr, h1, h2, h3, h4, i, hi, h5, by rw [← hadd.1, h7]⟩

theorem addjob_jid_minimal_witness :
    ∃ k, freejid demo_jobs = some k ∧ 1 ≤ k ∧ k ≤ 16 ∧
      (∀ j ∈ demo_jobs, j.jid ≠ k) ∧
      (∀ m : Int, 1 ≤ m → m < k → ∃ j ∈ demo_jobs, j.jid = m) ∧
      ∃ i, ∃ hi : i < demo_jobs.length, demo_jobs[i].pid = 0 ∧
        demo_jobs.set 1 ⟨503, 2, FG, "/bin/ls\n"⟩ = demo_jobs.set i ⟨503, k, FG, "/bin/ls\n"⟩ :=
  addjob_jid_minimal false demo_jobs (demo_jobs.set 1 ⟨503, 2, FG, "/bin/ls\n"⟩) 503 FG
    "/bin/ls\n" "" (by decide) (by decide) (by decide)

theorem deletejob_loop_some (pid : Int) :
    ∀ jobs jobs' : List job_t, deletejob_loop pid jobs = some jobs' →
      ∃ i, ∃ hi : i < jobs.length, jobs[i].pid = pid ∧
        (∀ k, ∀ hk : k < jobs.length, k < i → jobs[k].pid ≠ pid) ∧
        jobs' = jobs.set i empty_slot := by
  intro jobs
  induction jobs with
  | nil => intro jobs' h; simp [deletejob_loop] at h
  | cons j rest ih =>
    intro jobs' h
    by_cases hp : j.pid = pid
    · simp only [deletejob_loop, if_pos hp, Option.some.injEq] at h
      exact ⟨0, by simp, by simpa using hp, fun k _ hk => absurd hk (by omega),
        by simp [← h, clearjob, empty_slot]⟩
    · simp only [deletejob_loop, if_neg hp, Option.map_eq_some'] at h
      obtain ⟨r, hr, rfl⟩ := h
      obtain ⟨i, hi, h1, h2, h3⟩ := ih r hr
      refine ⟨i + 1, by simpa using hi, by simpa using h1, fun k hk hki => ?_, by simp [h3]⟩
      cases k with
      | zero => simpa using hp
      | succ k => simpa using h2 k (by simpa using hk) (by omega)

theorem deletejob_loop_none (pid : Int) (jobs : List job_t) :
    deletejob_loop pid jobs = none ↔ ∀ j ∈ jobs, j.pid ≠ pid := by
  induction jobs with
  | nil => simp [deletejob_loop]
  | cons j rest ih =>
    by_cases hp : j.pid = pid
    · simp [deletejob_loop, hp]
    · simp [deletejob_loop, hp, ih]

/-- In a job list with distinct live pids, a nonzero pid names at most one slot. -/
theorem distinct_pids_index (jobs : List job_t) (hd : distinct_pids jobs) (a b : Nat)
    (ha : a < jobs.length) (hb : b < jobs.length) (hz : jobs[a].pid ≠ 0)
    (he : jobs[a].pid = jobs[b].pid) : a = b := by
  have hp := List.pairwise_iff_getElem.1 hd
  have hzb : jobs[b].pid ≠ 0 := fun h0 => hz (he.trans h0)
  rcases Nat.lt_trichotomy a b with h | h | h
  · exact absurd he (hp a b ha hb h hz hzb)
  · exact h
  · exact absurd he.symm (hp b a hb ha h hzb hz)

/-- C3 (`deletejob`). On a job list with distinct live pids: if some entry has the pid
and `pid >= 1`, `deletejob` returns 1, the one slot holding that pid becomes the empty slot
(pid 0, jid 0, state UNDEF, empty command line) and every other slot is unchanged; if no entry
has the pid, `deletejob` returns 0 and the job list is unchanged. -/
theorem deletejob_spec (jobs : List job_t) (pid : Int) (hd : distinct_pids jobs) :
    ((∃ j ∈ jobs, j.pid = pid) → 1 ≤ pid →
      ∃ i, ∃ hi : i < jobs.length, jobs[i].pid = pid ∧
        (∀ k, ∀ hk : k < jobs.length, jobs[k].pid = pid → k = i) ∧
        deletejob jobs pid = (1, jobs.set i empty_slot) ∧
        (jobs.set i empty_slot)[i]? = some empty_slot ∧
        (∀ k, k ≠ i → (jobs.set i empty_slot)[k]? = jobs[k]?)) ∧
    ((∀ j ∈ jobs, j.pid ≠ pid) → deletejob jobs pid = (0, jobs)) := by
  constructor
  · rintro ⟨j, hj, hjp⟩ hpid
    have hp : ¬ pid < 1 := by omega
    cases hl : deletejob_loop pid jobs with
    | none => exact absurd hjp ((deletejob_loop_none pid jobs).1 hl j hj)
    | some js =>
      obtain ⟨i, hi, h1, _, h3⟩ := deletejob_loop_some pid jobs js hl
      refine ⟨i, hi, h1, fun k hk hkp => ?_, by simp [deletejob, hp, hl, h3], by simp [hi],
        fun k hk => by simp [List.getElem?_set, Ne.symm hk]⟩
      exact distinct_pids_index jobs hd k i hk hi (by omega) (by rw [hkp, h1])
  · intro hno
    by_cases hp : pid < 1
    · simp [deletejob, hp]
    · simp [deletejob, hp, (deletejob_loop_none pid jobs).2 hno]

theorem deletejob_spec_witness :
    ((∃ j ∈ demo_jobs, j.pid = 502) → (1 : Int) ≤ 502 →
      ∃ i, ∃ hi : i < demo_jobs.length, demo_jobs[i].pid = 502 ∧
        (∀ k, ∀ hk : k < demo_jobs.length, demo_jobs[k].pid = 502 → k = i) ∧
        deletejob demo_jobs 502 = (1, demo_jobs.set i empty_slot) ∧
        (demo_jobs.set i empty_slot)[i]? = some empty_slot ∧
        (∀ k, k ≠ i → (demo_jobs.set i empty_slot)[k]? = demo_jobs[k]?)) ∧
    ((∀ j ∈ demo_jobs, j.pid ≠ 502) → deletejob demo_jobs 502 = (0, demo_jobs)) :=
  deletejob_spec demo_jobs 502 (by decide)

/-- The job ids `1..16` as a list. -/
theorem mem_jid_range (m : Int) :
    m ∈ (List.range' 1 16).map (fun n : Nat => (n : Int)) ↔ 1 ≤ m ∧ m ≤ 16 := by
  simp only [List.mem_map, List.mem_range'_1]
  constructor
  · rintro ⟨n, hn, rfl⟩
    omega
  · intro h
    exact ⟨m.toNat, by omega, by omega⟩

theorem nodup_jid_range : ((List.range' 1 16).map (fun n : Nat => (n : Int))).Nodup :=
  List.Nodup.map (fun a b h => by simpa using h) (List.nodup_range' 1 16)

theorem wf_jids_in_range (jobs : List job_t) (hwf : wf_jobs jobs) :
    ∀ j ∈ jobs, j.jid = 0 ∨ (1 ≤ j.jid ∧ j.jid ≤ 16) := by
  intro j hj
  by_cases hp : j.pid = 0
  · exact Or.inl ((hwf.2.1 j hj).1 hp)
  · exact Or.inr (hwf.2.2.1 j hj hp)

/-- Pigeonhole for the job list: in a well-formed job list all 16 slots are occupied exactly
when `freejid` finds no free job id. -/
theorem full_iff_freejid_zero (jobs : List job_t) (hwf : wf_jobs jobs) :
    full jobs ↔ freejid jobs = some 0 := by
  obtain ⟨hlen, hpj, hrange, hdist⟩ := hwf
  obtain ⟨r, hr, hspec⟩ := freejid_spec jobs (wf_jids_in_range jobs ⟨hlen, hpj, hrange, hdist⟩)
  constructor
  · intro hfull
    rcases hspec with ⟨h0, _⟩ | ⟨h1, h2, h3, _⟩
    · rw [hr, h0]
    · exfalso
      have hnd : (jobs.map (fun j => j.jid)).Nodup := by
        rw [List.Nodup, List.pairwise_map]
        exact List.Pairwise.imp_of_mem (fun ha hb hab => hab (hfull _ ha) (hfull _ hb)) hdist
      have hsub : jobs.map (fun j => j.jid) ⊆
          (List.range' 1 16).map (fun n : Nat => (n : Int)) := by
        intro m hm
        obtain ⟨j, hj, rfl⟩ := List.mem_map.1 hm
        exact (mem_jid_range _).2 (hrange j hj (hfull j hj))
      have hperm := (List.subperm_of_subset hnd hsub).perm_of_length_le
        (by simp [hlen, MAXJOBS])
      have hmem : r ∈ jobs.map (fun j => j.jid) :=
        hperm.mem_iff.2 ((mem_jid_range r).2 ⟨h1, h2⟩)
      obtain ⟨j, hj, hjr⟩ := List.mem_map.1 hmem
      exact h3 j hj hjr
  · intro hfree
    rw [hr, Option.some.injEq] at hfree
    rcases hspec with ⟨_, hall⟩ | ⟨h1, _⟩
    · have hsub : (List.range' 1 16).map (fun n : Nat => (n : Int)) ⊆
          (jobs.filter (fun j => decide (j.jid ≠ 0))).map (fun j => j.jid) := by
        intro m hm
        have hm' := (mem_jid_range m).1 hm
        obtain ⟨j, hj, hjm⟩ := hall m hm'.1 hm'.2
        exact List.mem_map.2 ⟨j, List.mem_filter.2 ⟨hj, by simp; omega⟩, hjm⟩
      have hle := (List.subperm_of_subset nodup_jid_range hsub).length_le
      simp only [List.length_map, List.length_range'] at hle
      have hle2 := List.length_filter_le (fun j => decide (j.jid ≠ 0)) jobs
      have heq : (jobs.filter (fun j => decide (j.jid ≠ 0))).length = jobs.length := by
        simp only [MAXJOBS] at hlen
        omega
      intro j hj hp
      have := List.filter_length_eq_length.1 heq j hj
      simp only [decide_eq_true_eq] at this
      exact this ((hpj j hj).1 hp)
    · omega

/-- The case analysis of `addjob` on a well-formed job list. -/
theorem addjob_cases (verbose : Bool) (jobs : List job_t) (pid state : Int) (cmdline : String)
    (hwf : wf_jobs jobs) :
    ∃ r jobs' out, addjob verbose jobs pid state cmdline = some (r, jobs', out) ∧
      ((r = 0 ∧ jobs' = jobs) ↔ (pid < 1 ∨ full jobs)) ∧
      (pid < 1 → out = "") ∧
      (1 ≤ pid → full jobs → out = "Tried to create too many jobs\n") ∧
      (¬ (pid < 1 ∨ full jobs) →
        r = 1 ∧ ∃ k, freejid jobs = some k ∧ ∃ i, ∃ hi : i < jobs.length,
          jobs[i].pid = 0 ∧ jobs[i].jid = 0 ∧
          jobs' = jobs.set i ⟨pid, k, state, cmdline⟩ ∧
          jobs'[i]? = some ⟨pid, k, state, cmdline⟩ ∧
          (∀ n, n ≠ i → jobs'[n]? = jobs[n]?)) := by
  by_cases hp : pid < 1
  · exact ⟨0, jobs, "", by simp [addjob, hp], by simp [hp], fun _ => rfl,
      fun h1 => absurd hp (by omega), fun h => absurd (Or.inl hp) h⟩
  · obtain ⟨k, hk, _⟩ := freejid_spec jobs (wf_jids_in_range jobs hwf)
    by_cases hfull : full jobs
    · have hk0 : k = 0 := by
        have := (full_iff_freejid_zero jobs hwf).1 hfull
        rw [hk] at this
        exact Option.some.inj this
      exact ⟨0, jobs, "Tried to create too many jobs\n", by simp [addjob, hp, hk, hk0],
        ⟨fun _ => Or.inr hfull, fun _ => ⟨rfl, rfl⟩⟩, fun h => absurd h hp, fun _ _ => rfl,
        fun h => absurd (Or.inr hfull) h⟩
    · have hk0 : k ≠ 0 := fun h0 =>
        hfull ((full_iff_freejid_zero jobs hwf).2 (by rw [hk, h0]))
      cases hl : addjob_loop pid state k cmdline jobs with
      | none => exact absurd ((addjob_loop_none pid state k cmdline jobs).1 hl) hfull
      | some js =>
        obtain ⟨i, hi, h1, _, h3⟩ := addjob_loop_some pid state k cmdline jobs js hl
        refine ⟨1, js,
          if verbose then
            "Added job [" ++ fmt_d k ++ "] " ++ fmt_d pid ++ " " ++ cmdline ++ "\n"
          else "", by simp only [addjob, if_neg hp, hk, if_neg hk0, hl], ?_,
          fun h => absurd h hp, fun _ h => absurd h hfull, fun _ => ⟨rfl, k, hk, i, hi, h1,
            (hwf.2.1 _ (List.getElem_mem _)).1 h1, h3, by simp [h3, hi],
            fun n hn => by simp [h3, List.getElem?_set, Ne.symm hn]⟩⟩
        constructor
        · rintro ⟨h, _⟩
          exact absurd h (by decide)
        · rintro (h | h)
          · exact absurd h hp
          · exact absurd h hfull

/-- C2 (`addjob`). On a well-formed job list `addjob` always returns. It returns 0 and leaves
the job list unchanged exactly when `pid < 1` or all 16 slots are occupied; the full list
(reached with `pid >= 1`) prints `Tried to create too many jobs`, the `pid < 1` exit prints
nothing. In every other case it returns 1 and one previously empty slot holds
`(pid, freejid, state, cmdline)` while every other slot is unchanged. -/
theorem addjob_spec (verbose : Bool) (jobs : List job_t) (pid state : Int) (cmdline : String)
    (hwf : wf_jobs jobs) :
    ∃ r jobs' out, addjob verbose jobs pid state cmdline = some (r, jobs', out) ∧
      ((r = 0 ∧ jobs' = jobs) ↔ (pid < 1 ∨ full jobs)) ∧
      (pid < 1 → out = "") ∧
      (1 ≤ pid → full jobs → out = "Tried to create too many jobs\n") ∧
      (¬ (pid < 1 ∨ full jobs) →
        r = 1 ∧ ∃ k, freejid jobs = some k ∧ ∃ i, ∃ hi : i < jobs.length,
          jobs[i].pid = 0 ∧ jobs[i].jid = 0 ∧
          jobs' = jobs.set i ⟨pid, k, state, cmdline⟩ ∧
          jobs'[i]? = some ⟨pid, k, state, cmdline⟩ ∧
          (∀ n, n ≠ i → jobs'[n]? = jobs[n]?)) :=
  addjob_cases verbose jobs pid state cmdline hwf

theorem addjob_spec_witness :
    ∃ r jobs' out, addjob true demo_jobs 503 FG "/bin/ls\n" = some (r, jobs', out) ∧
      ((r = 0 ∧ jobs' = demo_jobs) ↔ ((503 : Int) < 1 ∨ full demo_jobs)) ∧
      ((503 : Int) < 1 → out = "") ∧
      ((1 : Int) ≤ 503 → full demo_jobs → out = "Tried to create too many jobs\n") ∧
      (¬ ((503 : Int) < 1 ∨ full demo_jobs) →
        r = 1 ∧ ∃ k, freejid demo_jobs = some k ∧ ∃ i, ∃ hi : i < demo_jobs.length,
          demo_jobs[i].pid = 0 ∧ demo_jobs[i].jid = 0 ∧
          jobs' = demo_jobs.set i ⟨503, k, FG, "/bin/ls\n"⟩ ∧
          jobs'[i]? = some ⟨503, k, FG, "/bin/ls\n"⟩ ∧
          (∀ n, n ≠ i → jobs'[n]? = demo_jobs[n]?)) :=
  addjob_spec true demo_jobs 503 FG "/bin/ls\n" (by decide)

/-! ### Invariants of the job list -/

/-- Overwriting one slot keeps a pairwise relation when the new entry is related to every
entry of the list, on both sides. -/
theorem pairwise_set {R : job_t → job_t → Prop} (l : List job_t) (i : Nat) (b : job_t)
    (hl : l.Pairwise R) (hb : ∀ x ∈ l, R x b ∧ R b x) : (l.set i b).Pairwise R := by
  rw [List.pairwise_iff_getElem] at hl ⊢
  intro a c ha hc hac
  have ha' : a < l.length := by simpa using ha
  have hc' : c < l.length := by simpa using hc
  simp only [List.getElem_set]
  by_cases h1 : i = a
  · rw [if_pos h1, if_neg (show ¬ i = c by omega)]
    exact (hb _ (List.getElem_mem _)).2
  · by_cases h2 : i = c
    · rw [if_neg h1, if_pos h2]
      exact (hb _ (List.getElem_mem _)).1
    · rw [if_neg h1, if_neg h2]
      exact hl a c ha' hc' hac

theorem pairwise_index {R : job_t → job_t → Prop} (l : List job_t) (hl : l.Pairwise R)
    (hs : ∀ x y, R x y → R y x) (a b : Nat) (ha : a < l.length) (hb : b < l.length)
    (hab : a ≠ b) : R l[a] l[b] := by
  rw [List.pairwise_iff_getElem] at hl
  rcases Nat.lt_or_gt_of_ne hab with h | h
  · exact hl a b ha hb h
  · exact hs _ _ (hl b a hb ha h)

/-- The invariant of the job list: well-formed, with distinct live pids. -/
theorem wf_initjobs (mem : List job_t) (hlen : mem.length = MAXJOBS) :
    wf_jobs (initjobs mem) ∧ distinct_pids (initjobs mem) := by
  have hall : ∀ j ∈ initjobs mem, j = empty_slot := by
    intro j hj
    obtain ⟨x, _, rfl⟩ := List.mem_map.1 hj
    rfl
  refine ⟨⟨by simp [initjobs, hlen], fun j hj => by rw [hall j hj]; decide,
    fun j hj hl => absurd (by rw [hall j hj]; rfl) hl, ?_⟩, ?_⟩
  · exact List.Pairwise.imp_of_mem (fun ha _ _ hl _ => absurd (by rw [hall _ ha]; rfl) hl)
      (List.pairwise_of_forall (fun _ _ => trivial))
  · exact List.Pairwise.imp_of_mem (fun ha _ _ hl _ => absurd (by rw [hall _ ha]; rfl) hl)
      (List.pairwise_of_forall (fun _ _ => trivial))

theorem wf_set_empty (jobs : List job_t) (i : Nat)
    (h : wf_jobs jobs ∧ distinct_pids jobs) :
    wf_jobs (jobs.set i empty_slot) ∧ distinct_pids (jobs.set i empty_slot) := by
  obtain ⟨⟨hlen, hpj, hrange, hdj⟩, hdp⟩ := h
  have hmem : ∀ j ∈ jobs.set i empty_slot, j ∈ jobs ∨ j = empty_slot :=
    fun j hj => List.mem_or_eq_of_mem_set hj
  refine ⟨⟨by simpa using hlen, fun j hj => ?_, fun j hj hl => ?_, ?_⟩, ?_⟩
  · rcases hmem j hj with h | h
    · exact hpj j h
    · rw [h]; decide
  · rcases hmem j hj with h | h
    · exact hrange j h hl
    · exact absurd (by rw [h]; rfl) hl
  · exact pairwise_set jobs i empty_slot hdj
      (fun x _ => ⟨fun _ hl => absurd rfl hl, fun hl => absurd rfl hl⟩)
  · exact pairwise_set jobs i empty_slot hdp
      (fun x _ => ⟨fun _ hl => absurd rfl hl, fun hl => absurd rfl hl⟩)

theorem wf_deletejob (jobs : List job_t) (pid : Int)
    (h : wf_jobs jobs ∧ distinct_pids jobs) :
    wf_jobs (deletejob jobs pid).2 ∧ distinct_pids (deletejob jobs pid).2 := by
  by_cases hp : pid < 1
  · simpa [deletejob, hp] using h
  · cases hl : deletejob_loop pid jobs with
    | none => simpa [deletejob, hp, hl] using h
    | some js =>
      obtain ⟨i, _, _, _, h3⟩ := deletejob_loop_some pid jobs js hl
      have := wf_set_empty jobs i h
      simpa [deletejob, hp, hl, h3] using this

theorem wf_addjob (verbose : Bool) (jobs jobs' : List job_t) (pid state r : Int)
    (cmdline out : String) (h : wf_jobs jobs ∧ distinct_pids jobs)
    (hfresh : ∀ j ∈ jobs, j.pid ≠ pid)
    (hadd : addjob verbose jobs pid state cmdline = some (r, jobs', out)) :
    wf_jobs jobs' ∧ distinct_pids jobs' := by
  obtain ⟨r', js, out', h1, h2, _, _, h5⟩ := addjob_cases verbose jobs pid state cmdline h.1
  rw [hadd, Option.some.injEq, Prod.mk.injEq, Prod.mk.injEq] at h1
  obtain ⟨rfl, rfl, rfl⟩ := h1
  by_cases hc : pid < 1 ∨ full jobs
  · rw [(h2.2 hc).2]
    exact h
  · obtain ⟨_, k, hk, i, hi, _, _, hset, _, _⟩ := h5 hc
    have hpid : 1 ≤ pid := by
      by_contra hlt
      exact hc (Or.inl (by omega))
    obtain ⟨k', hk', hspec⟩ := freejid_spec jobs (wf_jids_in_range jobs h.1)
    rw [hk, Option.some.injEq] at hk'
    subst hk'
    have hkr : 1 ≤ k ∧ k ≤ 16 ∧ ∀ j ∈ jobs, j.jid ≠ k := by
      rcases hspec with ⟨h0, _⟩ | ⟨a, b, c, _⟩
      · exact absurd ((full_iff_freejid_zero jobs h.1).2 (by rw [hk, h0])) (fun hf => hc (Or.inr hf))
      · exact ⟨a, b, c⟩
    obtain ⟨⟨hlen, hpj, hrange, hdj⟩, hdp⟩ := h
    have hmem : ∀ j ∈ jobs', j ∈ jobs ∨ j = ⟨pid, k, state, cmdline⟩ :=
      fun j hj => List.mem_or_eq_of_mem_set (hset ▸ hj)
    refine ⟨⟨by rw [hset]; simpa using hlen, fun j hj => ?_, fun j hj hl => ?_, ?_⟩, ?_⟩
    · rcases hmem j hj with h | h
      · exact hpj j h
      · rw [h]
        constructor
        · intro h0
          exact absurd h0 (by show pid ≠ 0; omega)
        · intro h0
          exact absurd h0 (by show k ≠ 0; omega)
    · rcases hmem j hj with h | h
      · exact hrange j h hl
      · rw [h]
        exact ⟨hkr.1, hkr.2.1⟩
    · rw [hset]
      exact pairwise_set jobs i _ hdj
        (fun x hx => ⟨fun _ _ => hkr.2.2 x hx, fun _ _ heq => hkr.2.2 x hx heq.symm⟩)
    · rw [hset]
      exact pairwise_set jobs i _ hdp
        (fun x hx => ⟨fun _ _ => hfresh x hx, fun _ _ heq => hfresh x hx heq.symm⟩)

theorem wf_of_reachable (jobs : List job_t) (h : table_reachable jobs) :
    wf_jobs jobs ∧ distinct_pids jobs := by
  induction h with
  | init mem hlen => exact wf_initjobs mem hlen
  | add verbose jobs jobs' pid state r cmdline out _ hfresh hadd ih =>
    exact wf_addjob verbose jobs jobs' pid state r cmdline out ih hfresh hadd
  | del jobs pid _ ih => exact wf_deletejob jobs pid ih

/-- C5 (key uniqueness). In every job list reachable from the one `initjobs` produces through
calls of `addjob` (each with a pid not currently in the list) and `deletejob`, no two live
entries share a pid, no two live entries share a job id, and the job id of every live entry
lies in `1..16`. -/
theorem reachable_keys_unique (jobs : List job_t) (h : table_reachable jobs) :
    (∀ a b, ∀ ha : a < jobs.length, ∀ hb : b < jobs.length, a ≠ b →
      live jobs[a] → live jobs[b] → jobs[a].pid ≠ jobs[b].pid) ∧
    (∀ a b, ∀ ha : a < jobs.length, ∀ hb : b < jobs.length, a ≠ b →
      live jobs[a] → live jobs[b] → jobs[a].jid ≠ jobs[b].jid) ∧
    (∀ j ∈ jobs, live j → 1 ≤ j.jid ∧ j.jid ≤ 16) := by
  obtain ⟨⟨_, _, hrange, hdj⟩, hdp⟩ := wf_of_reachable jobs h
  refine ⟨fun a b ha hb hab => ?_, fun a b ha hb hab => ?_, hrange⟩
  · exact pairwise_index jobs hdp (fun x y hxy hy hx heq => hxy hx hy heq.symm) a b ha hb hab
  · exact pairwise_index jobs hdj (fun x y hxy hy hx heq => hxy hx hy heq.symm) a b ha hb hab

theorem demo_reached_reachable : table_reachable demo_reached :=
  table_reachable.add false (initjobs (List.replicate 16 empty_slot)) demo_reached 500 BG 1
    "/bin/sleep 9 &\n" "" (table_reachable.init _ (by decide)) (by decide) (by decide)

theorem reachable_keys_unique_witness :
    table_reachable demo_reached ∧
    (∀ a b, ∀ ha : a < demo_reached.length, ∀ hb : b < demo_reached.length, a ≠ b →
      live demo_reached[a] → live demo_reached[b] → demo_reached[a].pid ≠ demo_reached[b].pid) ∧
    (∀ a b, ∀ ha : a < demo_reached.length, ∀ hb : b < demo_reached.length, a ≠ b →
      live demo_reached[a] → live demo_reached[b] → demo_reached[a].jid ≠ demo_reached[b].jid) ∧
    (∀ j ∈ demo_reached, live j → 1 ≤ j.jid ∧ j.jid ≤ 16) :=
  ⟨demo_reached_reachable, reachable_keys_unique demo_reached demo_reached_reachable⟩

/-! ### The SIGCHLD handler -/

theorem find_slot_some (p : job_t → Bool) :
    ∀ (jobs : List job_t) (i : Nat), find_slot p jobs = some i →
      ∃ hi : i < jobs.length, p jobs[i] = true ∧
        ∀ k, ∀ hk : k < jobs.length, k < i → p jobs[k] = false := by
  intro jobs
  induction jobs with
  | nil => intro i h; simp [find_slot] at h
  | cons j rest ih =>
    intro i h
    by_cases hp : p j = true
    · simp only [find_slot, if_pos hp, Option.some.injEq] at h
      subst h
      exact ⟨by simp, by simpa using hp, fun k _ hk => absurd hk (by omega)⟩
    · simp only [find_slot, if_neg hp, Option.map_eq_some'] at h
      obtain ⟨i', hi', rfl⟩ := h
      obtain ⟨hi, h1, h2⟩ := ih i' hi'
      refine ⟨by simpa using hi, by simpa using h1, fun k hk hki => ?_⟩
      cases k with
      | zero => simpa using hp
      | succ k => simpa using h2 k (by simpa using hk) (by omega)

theorem find_slot_none (p : job_t → Bool) (jobs : List job_t) :
    find_slot p jobs = none ↔ ∀ j ∈ jobs, p j = false := by
  induction jobs with
  | nil => simp [find_slot]
  | cons j rest ih =>
    by_cases hp : p j = true
    · simp [find_slot, hp]
    · simp [find_slot, hp, ih]

theorem deletejob_loop_eq (pid : Int) (jobs : List job_t) :
    deletejob_loop pid jobs =
      (find_slot (fun j => decide (j.pid = pid)) jobs).map (fun i => jobs.set i empty_slot) := by
  induction jobs with
  | nil => rfl
  | cons j rest ih =>
    by_cases hp : j.pid = pid
    · simp [deletejob_loop, find_slot, hp, clearjob, empty_slot]
    · simp only [deletejob_loop, find_slot, if_neg hp, ih, decide_eq_true_eq, Option.map_map]
      cases find_slot (fun j => decide (j.pid = pid)) rest <;> simp

/-- The lookup of a pid that some entry holds: `getjobpid` returns the first slot holding it,
and `deletejob` clears that slot. -/
theorem getjobpid_of_mem (jobs : List job_t) (pid : Int) (hpid : 0 < pid)
    (hmem : ∃ j ∈ jobs, j.pid = pid) :
    ∃ i, ∃ hi : i < jobs.length, getjobpid jobs pid = some i ∧ jobs[i].pid = pid ∧
      (∀ k, ∀ hk : k < jobs.length, k < i → jobs[k].pid ≠ pid) ∧
      deletejob jobs pid = (1, jobs.set i empty_slot) := by
  have hp : ¬ pid < 1 := by omega
  cases hf : find_slot (fun j => decide (j.pid = pid)) jobs with
  | none =>
    obtain ⟨j, hj, hjp⟩ := hmem
    have := (find_slot_none _ jobs).1 hf j hj
    simp [hjp] at this
  | some i =>
    obtain ⟨hi, h1, h2⟩ := find_slot_some _ jobs i hf
    refine ⟨i, hi, by simp [getjobpid, hp, hf], by simpa using h1,
      fun k hk hki => by simpa using h2 k hk hki, ?_⟩
    simp [deletejob, hp, deletejob_loop_eq, hf]

/-- C8 (reaping a terminated, exited or continued child). For a reaped pid (positive) that has
an entry, let `i` be the slot `getjobpid` finds (the first slot holding the pid). A child
terminated by signal `n` makes the handler print `Job [jid] (pid) terminated by signal n` with
the entry's jid and pid and clear slot `i`; a child that exited normally makes it clear slot
`i` and print nothing; a continued child leaves the job list unchanged and prints nothing.
Clearing slot `i` leaves every other slot unchanged. -/
theorem sigchld_handler_reaps (jobs : List job_t) (pid : Int) (rest : List child_event)
    (hpid : 0 < pid) (hmem : ∃ j ∈ jobs, j.pid = pid) :
    ∃ i, ∃ hi : i < jobs.length, getjobpid jobs pid = some i ∧ jobs[i].pid = pid ∧
      (∀ n, sigchld_handler jobs ((pid, .signaled n) :: rest) =
        some (jobs.set i empty_slot,
          "Job [" ++ fmt_d jobs[i].jid ++ "] (" ++ fmt_d pid ++ ") terminated by signal " ++
            fmt_d n ++ "\n", rest)) ∧
      (∀ c, sigchld_handler jobs ((pid, .exited c) :: rest) =
        some (jobs.set i empty_slot, "", rest)) ∧
      sigchld_handler jobs ((pid, .continued) :: rest) = some (jobs, "", rest) ∧
      (jobs.set i empty_slot)[i]? = some empty_slot ∧
      (∀ k, k ≠ i → (jobs.set i empty_slot)[k]? = jobs[k]?) := by
  obtain ⟨i, hi, h1, h2, _, h4⟩ := getjobpid_of_mem jobs pid hpid hmem
  have hd : deref jobs (some i) = some jobs[i] := by simp [deref, hi]
  refine ⟨i, hi, h1, h2, fun n => ?_, fun c => ?_, ?_, by simp [hi],
    fun k hk => by simp [List.getElem?_set, Ne.symm hk]⟩
  · simp [sigchld_handler, hpid, h1, hd, h4, h2, WIFSTOPPED, WIFCONTINUED, WIFEXITED, WTERMSIG]
  · simp [sigchld_handler, hpid, h4, WIFSTOPPED, WIFCONTINUED, WIFEXITED]
  · simp [sigchld_handler, hpid, WIFSTOPPED, WIFCONTINUED]

theorem sigchld_handler_reaps_witness :
    ∃ i, ∃ hi : i < demo_two.length, getjobpid demo_two 501 = some i ∧
      demo_two[i].pid = 501 ∧
      (∀ n, sigchld_handler demo_two [(501, .signaled n)] =
        some (demo_two.set i empty_slot,
          "Job [" ++ fmt_d demo_two[i].jid ++ "] (" ++ fmt_d 501 ++ ") terminated by signal " ++
            fmt_d n ++ "\n", [])) ∧
      (∀ c, sigchld_handler demo_two [(501, .exited c)] =
        some (demo_two.set i empty_slot, "", [])) ∧
      sigchld_handler demo_two [(501, .continued)] = some (demo_two, "", []) ∧
      (demo_two.set i empty_slot)[i]? = some empty_slot ∧
      (∀ k, k ≠ i → (demo_two.set i empty_slot)[k]? = demo_two[k]?) :=
  sigchld_handler_reaps demo_two 501 [] (by decide) (by decide)

/-- C6 (the reaper and several pending events), evaluated on two pending exits: the handler
returns after the first event, so job 2 (pid 501) stays in the job list and its event stays
pending, whereas the per-event update applied to both events clears both slots. -/
theorem sigchld_handler_handles_one :
    sigchld_handler demo_two [(500, .exited 0), (501, .exited 0)] =
      some (demo_two.set 0 empty_slot, "", [(501, .exited 0)]) ∧
    reap_all demo_two [(500, .exited 0), (501, .exited 0)] =
      some ((demo_two.set 0 empty_slot).set 1 empty_slot, "") ∧
    demo_two.set 0 empty_slot ≠ (demo_two.set 0 empty_slot).set 1 empty_slot := by
  decide

/-- C7 (stop notification), evaluated on the foreground job 3 (pid 502): whatever stop signal
`n` the kernel reports (19 for SIGSTOP, 21 for SIGTTIN, ...), the handler sets the job to ST
and prints `stopped by signal 20`, the constant SIGTSTP. -/
theorem sigchld_handler_stop_prints_sigtstp :
    (∀ n, sigchld_handler demo_two [(502, .stopped n)] =
      some (demo_two.set 2 ⟨502, 3, ST, "/bin/cat\n"⟩,
        "Job [3] (502) stopped by signal 20\n", [])) ∧
    WSTOPSIG (.stopped 19) = 19 := by
  refine ⟨fun n => ?_, rfl⟩
  rfl

/-! ### Launching a job -/

/-- C9 (full job list on launch), evaluated on a full well-formed job list and the child pid
600. For the background line `/bin/sleep 5 &`, `addjob` prints the diagnostic and returns 0,
`getjobpid(jobs, pid)` then returns `NULL` and `eval` dereferences it (`->jid`): `eval` has no
defined result. For the foreground line `/bin/sleep 5` the diagnostic is printed once, the job
list is unchanged and `waitfg` returns at once. -/
theorem eval_full_table_bg_null_deref :
    wf_jobs full_jobs ∧ full full_jobs ∧
    addjob false full_jobs 600 BG "/bin/sleep 5 &\n" =
      some (0, full_jobs, "Tried to create too many jobs\n") ∧
    getjobpid full_jobs 600 = none ∧
    eval false full_jobs "/bin/sleep 5 &\n" 600 = none ∧
    eval false full_jobs "/bin/sleep 5\n" 600 =
      some ⟨full_jobs, "Tried to create too many jobs\n", [], some 600, none⟩ ∧
    waitfg full_jobs 600 600 [] = some (.returned full_jobs "") := by
  decide

/-- C10 (background launch line) fails as stated: for the line `/bin/sleep  5 &` (two spaces
after the program), launched in a job list with free slots, the shell prints the tokens joined
by single spaces, which is not the command line as entered. -/
theorem eval_bg_line_not_verbatim :
    parseline "/bin/sleep  5 &\n" = some ["/bin/sleep", "5", "&"] ∧
    wf_jobs demo_jobs ∧ ¬ full demo_jobs ∧
    eval false demo_jobs "/bin/sleep  5 &\n" 600 =
      some ⟨demo_jobs.set 1 ⟨600, 2, BG, "/bin/sleep  5 &\n"⟩,
        "[2] (600) /bin/sleep 5 &\n", [], none, none⟩ ∧
    "[2] (600) /bin/sleep 5 &\n" ≠ "[2] (600) " ++ "/bin/sleep  5 &\n" := by
  decide

theorem line_of_demo : line_of ["/bin/sleep", "5", "&"] = "/bin/sleep 5 &\n" := by decide

theorem split_at_length (c : Char) :
    ∀ (l tok after : List Char), split_at c l = some (tok, after) → after.length < l.length := by
  intro l
  induction l with
  | nil => intro tok after h; simp [split_at] at h
  | cons x xs ih =>
    intro tok after h
    by_cases hx : x = c
    · simp only [split_at, if_pos hx, Option.some.injEq, Prod.mk.injEq] at h
      rw [← h.2]
      simp
    · simp only [split_at, if_neg hx] at h
      cases hs : split_at c xs with
      | none => simp [hs] at h
      | some p =>
        obtain ⟨t, a⟩ := p
        simp only [hs, Option.some.injEq, Prod.mk.injEq] at h
        have := ih t a hs
        rw [← h.2]
        simp only [List.length_cons]
        omega

theorem skip_spaces_length (l : List Char) : (skip_spaces l).length ≤ l.length := by
  induction l with
  | nil => simp [skip_spaces]
  | cons x xs ih =>
    by_cases hx : x = ' '
    · simp only [skip_spaces, if_pos hx, List.length_cons]
      omega
    · simp [skip_spaces, hx]

/-- The iteration bound of `parseline_loop` is never reached: every bound above the length of
the buffer gives the same tokens. -/
theorem parseline_loop_fuel :
    ∀ (n m : Nat) (buf : List Char), buf.length < n → buf.length < m →
      parseline_loop n buf = parseline_loop m buf := by
  intro n
  induction n with
  | zero => intro m buf h; exact absurd h (by omega)
  | succ n ih =>
    intro m buf hn hm
    cases m with
    | zero => exact absurd hm (by omega)
    | succ m =>
      simp only [parseline_loop]
      cases hs : split_at (if decide (buf.head? = some QUOTE) = true then QUOTE else ' ')
          (if decide (buf.head? = some QUOTE) = true then buf.tail else buf) with
      | none => rfl
      | some p =>
        obtain ⟨tok, after⟩ := p
        have h1 := split_at_length _ _ tok after hs
        have h2 := skip_spaces_length after
        have h3 : (if decide (buf.head? = some QUOTE) = true then buf.tail else buf).length ≤
            buf.length := by
          split
          · simp
          · exact le_refl _
        simp only []
        rw [ih m (skip_spaces after) (by omega) (by omega)]

theorem split_at_token (t after : List Char) (h : ' ' ∉ t) :
    split_at ' ' (t ++ ' ' :: after) = some (t, after) := by
  induction t with
  | nil => simp [split_at]
  | cons x xs ih =>
    have hx : x ≠ ' ' := fun hx => h (by simp [hx])
    have hxs : ' ' ∉ xs := fun hm => h (List.mem_cons_of_mem _ hm)
    simp [split_at, hx, ih hxs]

theorem skip_spaces_spaced (ts : List String) (h : ∀ t ∈ ts, plain_token t) :
    skip_spaces (spaced (ts.map (fun t => t.data))) = spaced (ts.map (fun t => t.data)) := by
  cases ts with
  | nil => rfl
  | cons t rest =>
    obtain ⟨h1, h2, _⟩ := h t (List.mem_cons_self _ _)
    cases hd : t.data with
    | nil => exact absurd hd h1
    | cons c cs =>
      have hc : c ≠ ' ' := fun hc => h2 (by simp [hd, hc])
      simp [spaced, hd, skip_spaces, hc]

theorem parseline_loop_spaced (ts : List String) :
    (∀ t ∈ ts, plain_token t) → ∀ fuel, (spaced (ts.map (fun t => t.data))).length < fuel →
      parseline_loop fuel (spaced (ts.map (fun t => t.data))) = ts.map (fun t => t.data) := by
  induction ts with
  | nil =>
    intro _ fuel hf
    cases fuel with
    | zero => rfl
    | succ n => simp [spaced, parseline_loop, split_at]
  | cons t rest ih =>
    intro h fuel hf
    obtain ⟨h1, h2, h3⟩ := h t (List.mem_cons_self _ _)
    have hrest : ∀ x ∈ rest, plain_token x := fun x hx => h x (List.mem_cons_of_mem _ hx)
    cases fuel with
    | zero => exact absurd hf (by omega)
    | succ n =>
      have hq : (t.data ++ ' ' :: spaced (rest.map (fun t => t.data))).head? ≠ some QUOTE := by
        cases hd : t.data with
        | nil => exact absurd hd h1
        | cons c cs =>
          rw [hd] at h3
          simpa using h3
      simp only [List.map_cons, spaced, parseline_loop, hq, decide_False, Bool.false_eq_true,
        if_false, split_at_token _ _ h2, skip_spaces_spaced rest hrest]
      rw [ih hrest n (by simp only [List.map_cons, spaced, List.length_append,
        List.length_cons] at hf; omega)]

theorem spaced_dropLast (ts : List (List Char)) (h : ts ≠ []) :
    (spaced ts).dropLast ++ [' '] = spaced ts := by
  induction ts with
  | nil => exact absurd rfl h
  | cons t rest ih =>
    cases rest with
    | nil =>
      simp only [spaced]
      rw [show t ++ [' '] = t ++ [' '] from rfl, List.dropLast_concat]
    | cons u us =>
      have hne : spaced (u :: us) ≠ [] := by simp [spaced]
      have := ih (by simp)
      rw [spaced, show t ++ ' ' :: spaced (u :: us) = (t ++ [' ']) ++ spaced (u :: us) by simp,
        List.dropLast_append_of_ne_nil _ hne, List.append_assoc, this]

/-- A line of plain tokens separated by single spaces is parsed into those tokens. -/
theorem parseline_line_of (toks : List String) (hne : toks ≠ [])
    (hplain : ∀ t ∈ toks, plain_token t) :
    parseline (line_of toks) = if toks.length < MAXARGS then some toks else none := by
  have hts : toks.map (fun t => t.data) ≠ [] := by simpa using hne
  have hbuf : ((spaced (toks.map (fun t => t.data))).dropLast ++ [Char.ofNat 10]).dropLast ++
      [' '] = spaced (toks.map (fun t => t.data)) := by
    rw [List.dropLast_concat, spaced_dropLast _ hts]
  have hloop := parseline_loop_spaced toks hplain
    ((spaced (toks.map (fun t => t.data))).length + 1) (by omega)
  have hmap : (toks.map (fun t => t.data)).map String.mk = toks := by
    rw [List.map_map]
    exact (List.map_congr_left (fun t _ => rfl)).trans (List.map_id toks)
  unfold parseline
  cases hd : (line_of toks).data with
  | nil => simp [line_of] at hd
  | cons c cs =>
    have hd' : c :: cs = (spaced (toks.map (fun t => t.data))).dropLast ++ [Char.ofNat 10] := by
      rw [← hd]; rfl
    simp only [hd', hbuf, skip_spaces_spaced toks hplain, hloop, List.length_map, hmap]

theorem spaced_cons_dropLast (t : List Char) (rest : List (List Char)) (h : rest ≠ []) :
    (spaced (t :: rest)).dropLast = t ++ ' ' :: (spaced rest).dropLast := by
  have hne : spaced rest ≠ [] := by
    cases rest with
    | nil => exact absurd rfl h
    | cons u us => simp [spaced]
  rw [spaced, show t ++ ' ' :: spaced rest = (t ++ [' ']) ++ spaced rest by simp,
    List.dropLast_append_of_ne_nil _ hne]
  simp

theorem print_argv_data (toks : List String) (hne : toks ≠ []) :
    (print_argv toks).data = ' ' :: (spaced (toks.map (fun t => t.data))).dropLast := by
  induction toks with
  | nil => exact absurd rfl hne
  | cons t rest ih =>
    cases rest with
    | nil =>
      simp only [print_argv, List.map_cons, List.map_nil, spaced, String.data_append]
      rw [List.dropLast_concat]
      simp
    | cons u us =>
      have h1 := spaced_cons_dropLast t.data ((u :: us).map (fun t => t.data)) (by simp)
      have h2 := ih (by simp)
      rw [print_argv, String.data_append, String.data_append, h2]
      show " ".data ++ t.data ++ ' ' :: (spaced ((u :: us).map (fun t => t.data))).dropLast =
        ' ' :: (spaced (t.data :: (u :: us).map (fun t => t.data))).dropLast
      rw [h1]
      simp

/-- What is printed for the tokens of a plain line is a space followed by the line. -/
theorem print_argv_line_of (toks : List String) (hne : toks ≠ []) :
    print_argv toks ++ "\n" = " " ++ line_of toks := by
  apply String.ext
  rw [String.data_append, String.data_append, print_argv_data toks hne]
  rfl

theorem find_slot_eq_some (p : job_t → Bool) (jobs : List job_t) (i : Nat)
    (hi : i < jobs.length) (hp : p jobs[i] = true)
    (hfirst : ∀ k, ∀ hk : k < jobs.length, k < i → p jobs[k] = false) :
    find_slot p jobs = some i := by
  cases hf : find_slot p jobs with
  | none =>
    have := (find_slot_none p jobs).1 hf _ (List.getElem_mem hi)
    rw [hp] at this
    exact absurd this (by simp)
  | some n =>
    obtain ⟨hn, h1, h2⟩ := find_slot_some p jobs n hf
    rcases Nat.lt_trichotomy n i with h | h | h
    · have := hfirst n hn h
      rw [h1] at this
      exact absurd this (by simp)
    · rw [h]
    · have := h2 i hi h
      rw [hp] at this
      exact absurd this (by simp)

/-- C10 as amended (background launch line). For a command line that is not a built-in and
whose last token is `&`, launched with the verbose flag off in a well-formed job list that is
not full, the child pid being positive and new to the list: `addjob` puts the job into a
previously empty slot with the job id `k` that `freejid` returns, and the shell prints exactly
`[k] (pid)`, then every token of the parsed argument vector preceded by one space, then a
newline. When the line consists of plain tokens separated by single spaces this is
`[k] (pid) ` followed by the command line as entered, newline included. -/
theorem eval_bg_prints_argv (jobs : List job_t) (cmdline : String) (pid : Int)
    (argv : List String) (hwf : wf_jobs jobs) (hfree : ¬ full jobs) (hpid : 1 ≤ pid)
    (hfresh : ∀ j ∈ jobs, j.pid ≠ pid) (hparse : parseline cmdline = some argv)
    (hlast : argv.getLast? = some "&") (hnb : not_builtin argv)
    (hseg : (pipe_tokenizer cmdline).length ≤ MAXARGS) :
    ∃ k i, ∃ hi : i < jobs.length, freejid jobs = some k ∧ jobs[i].pid = 0 ∧
      addjob false jobs pid BG cmdline = some (1, jobs.set i ⟨pid, k, BG, cmdline⟩, "") ∧
      eval false jobs cmdline pid =
        some ⟨jobs.set i ⟨pid, k, BG, cmdline⟩,
          "[" ++ fmt_d k ++ "] (" ++ fmt_d pid ++ ")" ++ print_argv argv ++ "\n",
          [], none, none⟩ ∧
      (∀ toks, toks ≠ [] → (∀ t ∈ toks, plain_token t) → cmdline = line_of toks →
        argv = toks ∧
        "[" ++ fmt_d k ++ "] (" ++ fmt_d pid ++ ")" ++ print_argv argv ++ "\n" =
          "[" ++ fmt_d k ++ "] (" ++ fmt_d pid ++ ") " ++ cmdline) := by
  have hp : ¬ pid < 1 := by omega
  obtain ⟨k, hk, _⟩ := freejid_spec jobs (wf_jids_in_range jobs hwf)
  have hk0 : k ≠ 0 := fun h0 => hfree ((full_iff_freejid_zero jobs hwf).2 (by rw [hk, h0]))
  cases hl : addjob_loop pid BG k cmdline jobs with
  | none => exact absurd ((addjob_loop_none pid BG k cmdline jobs).1 hl) hfree
  | some js =>
    obtain ⟨i, hi, h1, h2, h3⟩ := addjob_loop_some pid BG k cmdline jobs js hl
    have hadd : addjob false jobs pid BG cmdline =
        some (1, jobs.set i ⟨pid, k, BG, cmdline⟩, "") := by
      simp [addjob, hp, hk, hk0, hl, h3]
    have hi' : i < (jobs.set i ⟨pid, k, BG, cmdline⟩).length := by simpa using hi
    have hfind : getjobpid (jobs.set i ⟨pid, k, BG, cmdline⟩) pid = some i := by
      rw [getjobpid, if_neg hp]
      refine find_slot_eq_some _ _ i hi' (by simp) (fun n hn hni => ?_)
      have hn' : n < jobs.length := by simpa using hn
      have hne : ¬ i = n := by omega
      simp only [List.getElem_set, if_neg hne, decide_eq_false_iff_not]
      exact hfresh _ (List.getElem_mem hn')
    have hseg' : ¬ MAXARGS < (pipe_tokenizer cmdline).length := by omega
    have hb : ¬ (argv.head? = some "quit" ∨ argv.head? = some "jobs" ∨
        argv.head? = some "fg" ∨ argv.head? = some "bg") := by
      rintro (h | h | h | h)
      · exact hnb.1 h
      · exact hnb.2.1 h
      · exact hnb.2.2.1 h
      · exact hnb.2.2.2 h
    refine ⟨k, i, hi, hk, h1, hadd, ?_, fun toks hne hplain hline => ?_⟩
    · simp only [eval, hparse, hlast, if_neg hb, if_neg hseg', hadd, hfind, deref]
      simp [hi]
    · have hpl := parseline_line_of toks hne hplain
      rw [← hline, hparse] at hpl
      have hargv : argv = toks := by
        by_cases hlen : toks.length < MAXARGS
        · rw [if_pos hlen] at hpl
          exact Option.some.inj hpl
        · rw [if_neg hlen] at hpl
          exact absurd hpl (by simp)
      refine ⟨hargv, ?_⟩
      rw [hargv, String.append_assoc _ (print_argv toks) "\n", print_argv_line_of toks hne,
        ← hline, ← String.append_assoc, String.append_assoc _ ")" " "]
      rfl

theorem eval_bg_prints_argv_witness :
    ∃ k i, ∃ hi : i < demo_jobs.length, freejid demo_jobs = some k ∧ demo_jobs[i].pid = 0 ∧
      addjob false demo_jobs 600 BG "/bin/sleep 5 &\n" =
        some (1, demo_jobs.set i ⟨600, k, BG, "/bin/sleep 5 &\n"⟩, "") ∧
      eval false demo_jobs "/bin/sleep 5 &\n" 600 =
        some ⟨demo_jobs.set i ⟨600, k, BG, "/bin/sleep 5 &\n"⟩,
          "[" ++ fmt_d k ++ "] (" ++ fmt_d 600 ++ ")" ++
            print_argv ["/bin/sleep", "5", "&"] ++ "\n",
          [], none, none⟩ ∧
      (∀ toks, toks ≠ [] → (∀ t ∈ toks, plain_token t) → "/bin/sleep 5 &\n" = line_of toks →
        ["/bin/sleep", "5", "&"] = toks ∧
        "[" ++ fmt_d k ++ "] (" ++ fmt_d 600 ++ ")" ++
            print_argv ["/bin/sleep", "5", "&"] ++ "\n" =
          "[" ++ fmt_d k ++ "] (" ++ fmt_d 600 ++ ") " ++ "/bin/sleep 5 &\n") :=
  eval_bg_prints_argv demo_jobs "/bin/sleep 5 &\n" 600 ["/bin/sleep", "5", "&"]
    (by decide) (by decide) (by decide) (by decide) (by decide) (by decide) (by decide)
    (by decide)

/-! ### Foreground entries under the single functions -/

theorem set_state_eq (jobs : List job_t) (i : Nat) (s : Int) (hi : i < jobs.length) :
    set_state jobs i s = jobs.set i ⟨jobs[i].pid, jobs[i].jid, s, jobs[i].cmdline⟩ := by
  simp [set_state, hi]

/-- Overwriting slot `i` keeps a pairwise relation when the new entry is related to whatever
the old entry was related to. -/
theorem pairwise_set_congr {R : job_t → job_t → Prop} (l : List job_t) (i : Nat)
    (hi : i < l.length) (b : job_t) (hl : l.Pairwise R)
    (h1 : ∀ y, R l[i] y → R b y) (h2 : ∀ x, R x l[i] → R x b) : (l.set i b).Pairwise R := by
  rw [List.pairwise_iff_getElem] at hl ⊢
  intro a c ha hc hac
  have ha' : a < l.length := by simpa using ha
  have hc' : c < l.length := by simpa using hc
  have hR := hl a c ha' hc' hac
  simp only [List.getElem_set]
  by_cases e1 : i = a
  · rw [if_pos e1, if_neg (show ¬ i = c by omega)]
    subst e1
    exact h1 _ hR
  · by_cases e2 : i = c
    · rw [if_neg e1, if_pos e2]
      subst e2
      exact h2 _ hR
    · rw [if_neg e1, if_neg e2]
      exact hR

theorem table_inv_set_state (jobs : List job_t) (i : Nat) (s : Int) (hi : i < jobs.length)
    (hlive : live jobs[i]) (h : table_inv jobs) : table_inv (set_state jobs i s) := by
  obtain ⟨⟨hlen, hpj, hrange, hdj⟩, hdp, hpos, hfg⟩ := h
  rw [set_state_eq jobs i s hi]
  have hin : jobs[i] ∈ jobs := List.getElem_mem hi
  have hmem : ∀ j ∈ jobs.set i ⟨jobs[i].pid, jobs[i].jid, s, jobs[i].cmdline⟩,
      j ∈ jobs ∨ j = ⟨jobs[i].pid, jobs[i].jid, s, jobs[i].cmdline⟩ :=
    fun j hj => List.mem_or_eq_of_mem_set hj
  refine ⟨⟨by simpa using hlen, fun j hj => ?_, fun j hj hl => ?_, ?_⟩, ?_, fun j hj hl => ?_,
    fun j hj hs => ?_⟩
  · rcases hmem j hj with h | h
    · exact hpj j h
    · rw [h]; exact hpj jobs[i] hin
  · rcases hmem j hj with h | h
    · exact hrange j h hl
    · rw [h]; rw [h] at hl; exact hrange jobs[i] hin hl
  · exact pairwise_set_congr jobs i hi _ hdj (fun y hy => hy) (fun x hx => hx)
  · exact pairwise_set_congr jobs i hi _ hdp (fun y hy => hy) (fun x hx => hx)
  · rcases hmem j hj with h | h
    · exact hpos j h hl
    · rw [h]; rw [h] at hl; exact hpos jobs[i] hin hl
  · rcases hmem j hj with h | h
    · exact hfg j h hs
    · rw [h]; exact hlive

theorem table_inv_set_empty (jobs : List job_t) (i : Nat) (h : table_inv jobs) :
    table_inv (jobs.set i empty_slot) := by
  obtain ⟨hwf, hdp, hpos, hfg⟩ := h
  obtain ⟨hwf', hdp'⟩ := wf_set_empty jobs i ⟨hwf, hdp⟩
  have hmem : ∀ j ∈ jobs.set i empty_slot, j ∈ jobs ∨ j = empty_slot :=
    fun j hj => List.mem_or_eq_of_mem_set hj
  refine ⟨hwf', hdp', fun j hj hl => ?_, fun j hj hs => ?_⟩
  · rcases hmem j hj with h | h
    · exact hpos j h hl
    · exact absurd (by rw [h]; rfl) hl
  · rcases hmem j hj with h | h
    · exact hfg j h hs
    · rw [h] at hs
      exact absurd hs (by decide)

theorem table_inv_quiet (jobs jobs' : List job_t) (hq : quiet_change jobs jobs')
    (h : table_inv jobs) : table_inv jobs' := by
  rcases hq with rfl | ⟨i, s, hi, hl, _, rfl⟩ | ⟨i, rfl⟩
  · exact h
  · exact table_inv_set_state jobs i s hi hl h
  · exact table_inv_set_empty jobs i h

theorem fg_only_quiet (jobs jobs' : List job_t) (pid : Int) (hq : quiet_change jobs jobs')
    (h : fg_only jobs pid) : fg_only jobs' pid := by
  rcases hq with rfl | ⟨i, s, hi, _, hs, rfl⟩ | ⟨i, rfl⟩
  · exact h
  · intro j hj hfg
    rw [set_state_eq jobs i s hi] at hj
    rcases List.mem_or_eq_of_mem_set hj with h1 | h1
    · exact h j h1 hfg
    · rw [h1] at hfg
      exact absurd hfg hs
  · intro j hj hfg
    rcases List.mem_or_eq_of_mem_set hj with h1 | h1
    · exact h j h1 hfg
    · rw [h1] at hfg
      exact absurd hfg (by decide)

theorem no_fg_quiet (jobs jobs' : List job_t) (hq : quiet_change jobs jobs')
    (h : no_fg jobs) : no_fg jobs' := by
  intro j hj hfg
  have h0 : fg_only jobs 0 := fun x hx hxfg => absurd hxfg (h x hx)
  have h1 : fg_only jobs 1 := fun x hx hxfg => absurd hxfg (h x hx)
  have e0 := fg_only_quiet jobs jobs' 0 hq h0 j hj hfg
  have e1 := fg_only_quiet jobs jobs' 1 hq h1 j hj hfg
  omega

theorem job_points_quiet (jobs jobs' : List job_t) (pid : Int) (job : Option Nat)
    (hpid : 1 ≤ pid) (hq : quiet_change jobs jobs') (h : job_points jobs pid job) :
    job_points jobs' pid job := by
  rcases hq with rfl | ⟨i, s, hi, _, _, rfl⟩ | ⟨i, rfl⟩
  · exact h
  · intro n hn hp
    rw [set_state_eq jobs i s hi] at hn
    have hn' : n < jobs.length := by simpa using hn
    refine h n hn' ?_
    simp only [set_state_eq jobs i s hi, List.getElem_set] at hp
    by_cases e : i = n
    · rw [if_pos e] at hp
      subst e
      exact hp
    · rw [if_neg e] at hp
      exact hp
  · intro n hn hp
    have hn' : n < jobs.length := by simpa using hn
    refine h n hn' ?_
    simp only [List.getElem_set] at hp
    by_cases e : i = n
    · rw [if_pos e] at hp
      exact absurd hp (by show (0 : Int) ≠ pid; omega)
    · rw [if_neg e] at hp
      exact hp

theorem loc_inv_quiet (jobs jobs' : List job_t) (loc : shell_at) (hq : quiet_change jobs jobs')
    (h : loc_inv jobs loc) : loc_inv jobs' loc := by
  cases loc with
  | repl => exact no_fg_quiet jobs jobs' hq h
  | call_waitfg pid => exact ⟨h.1, fg_only_quiet jobs jobs' pid hq h.2⟩
  | in_waitfg pid job fgPG =>
    exact ⟨h.1, fg_only_quiet jobs jobs' pid hq h.2.1, h.2.2.1,
      job_points_quiet jobs jobs' pid job h.1 hq h.2.2.2⟩

theorem deletejob_quiet (jobs : List job_t) (pid : Int) :
    quiet_change jobs (deletejob jobs pid).2 := by
  by_cases hp : pid < 1
  · exact Or.inl (by simp [deletejob, hp])
  · cases hl : deletejob_loop pid jobs with
    | none => exact Or.inl (by simp [deletejob, hp, hl])
    | some js =>
      obtain ⟨i, _, _, _, h3⟩ := deletejob_loop_some pid jobs js hl
      exact Or.inr (Or.inr ⟨i, by simp [deletejob, hp, hl, h3]⟩)

theorem getjobpid_some (jobs : List job_t) (pid : Int) (i : Nat)
    (h : getjobpid jobs pid = some i) :
    ∃ hi : i < jobs.length, jobs[i].pid = pid ∧ 1 ≤ pid := by
  by_cases hp : pid < 1
  · simp [getjobpid, hp] at h
  · rw [getjobpid, if_neg hp] at h
    obtain ⟨hi, h1, _⟩ := find_slot_some _ jobs i h
    exact ⟨hi, by simpa using h1, by omega⟩

theorem getjobjid_some (jobs : List job_t) (jid : Int) (i : Nat)
    (h : getjobjid jobs jid = some i) :
    ∃ hi : i < jobs.length, jobs[i].jid = jid ∧ 1 ≤ jid := by
  by_cases hp : jid < 1
  · simp [getjobjid, hp] at h
  · rw [getjobjid, if_neg hp] at h
    obtain ⟨hi, h1, _⟩ := find_slot_some _ jobs i h
    exact ⟨hi, by simpa using h1, by omega⟩

/-- Whatever the pending events, one run of the handler puts no job into the foreground. -/
theorem sigchld_handler_quiet (jobs jobs' : List job_t) (pending rest : List child_event)
    (out : String) (h : sigchld_handler jobs pending = some (jobs', out, rest)) :
    quiet_change jobs jobs' := by
  cases pending with
  | nil =>
    simp only [sigchld_handler, Option.some.injEq, Prod.mk.injEq] at h
    exact Or.inl h.1.symm
  | cons ev more =>
    obtain ⟨p, st⟩ := ev
    by_cases hp : p > 0
    · cases st with
      | exited c =>
        simp only [sigchld_handler, if_pos hp, WIFSTOPPED, WIFCONTINUED, WIFEXITED,
          Bool.false_eq_true, if_false, Bool.not_true, Option.some.injEq, Prod.mk.injEq] at h
        rw [← h.1]
        exact deletejob_quiet jobs p
      | signaled n =>
        simp only [sigchld_handler, if_pos hp, WIFSTOPPED, WIFCONTINUED, WIFEXITED,
          Bool.false_eq_true, if_false, Bool.not_false, if_true] at h
        cases hd : deref jobs (getjobpid jobs p) with
        | none => simp [hd] at h
        | some j =>
          simp only [hd, Option.some.injEq, Prod.mk.injEq] at h
          rw [← h.1]
          exact deletejob_quiet jobs p
      | stopped n =>
        simp only [sigchld_handler, if_pos hp, WIFSTOPPED, if_true] at h
        cases hg : getjobpid jobs p with
        | none => simp [hg] at h
        | some i =>
          obtain ⟨hi, hpid, _⟩ := getjobpid_some jobs p i hg
          have hd : deref jobs (some i) = some jobs[i] := by simp [deref, hi]
          simp only [hg, hd, Option.some.injEq, Prod.mk.injEq] at h
          refine Or.inr (Or.inl ⟨i, ST, hi, ?_, by decide, h.1.symm⟩)
          show jobs[i].pid ≠ 0
          omega
      | continued =>
        simp only [sigchld_handler, if_pos hp, WIFSTOPPED, WIFCONTINUED, Bool.false_eq_true,
          if_false, if_true, Option.some.injEq, Prod.mk.injEq] at h
        exact Or.inl h.1.symm
    · simp only [sigchld_handler, if_neg hp, Option.some.injEq, Prod.mk.injEq] at h
      exact Or.inl h.1.symm

theorem do_bgfg_found_effect (jobs : List job_t) (cmd arg : String) (jobfound : Option Nat)
    (r : bgfg_result) (h : do_bgfg_found jobs cmd arg jobfound = some r)
    (hlive : ∀ i, jobfound = some i → ∃ hi : i < jobs.length, live jobs[i]) :
    (r.wait = none ∧ quiet_change jobs r.jobs) ∨
    (∃ i, ∃ hi : i < jobs.length, live jobs[i] ∧ r.jobs = set_state jobs i FG ∧
      r.wait = some jobs[i].pid) := by
  cases jobfound with
  | none =>
    simp only [do_bgfg_found] at h
    split at h <;>
    · rw [Option.some.injEq] at h
      subst h
      exact Or.inl ⟨rfl, Or.inl rfl⟩
  | some i =>
    obtain ⟨hi, hl⟩ := hlive i rfl
    have hget : jobs[i]? = some jobs[i] := by simp [hi]
    simp only [do_bgfg_found, hget] at h
    by_cases hc : cmd = "bg"
    · rw [if_pos hc, Option.some.injEq] at h
      subst h
      exact Or.inl ⟨rfl, Or.inr (Or.inl ⟨i, BG, hi, hl, by decide, rfl⟩)⟩
    · rw [if_neg hc, Option.some.injEq] at h
      subst h
      exact Or.inr ⟨i, hi, hl, rfl, rfl⟩

/-- The effect of `bg` / `fg` on the job list: `fg` on a live job makes it the foreground job
and ends in `waitfg` on its pid; everything else puts no job into the foreground and does not
wait. -/
theorem do_bgfg_effect (jobs : List job_t) (argv : List String) (r : bgfg_result)
    (hinv : table_inv jobs) (h : do_bgfg jobs argv = some r) :
    (r.wait = none ∧ quiet_change jobs r.jobs) ∨
    (∃ i, ∃ hi : i < jobs.length, live jobs[i] ∧ r.jobs = set_state jobs i FG ∧
      r.wait = some jobs[i].pid) := by
  have hquiet : ∀ out : String, r = ⟨jobs, out, [], none⟩ →
      (r.wait = none ∧ quiet_change jobs r.jobs) ∨
      (∃ i, ∃ hi : i < jobs.length, live jobs[i] ∧ r.jobs = set_state jobs i FG ∧
        r.wait = some jobs[i].pid) := by
    intro out hr
    subst hr
    exact Or.inl ⟨rfl, Or.inl rfl⟩
  match argv, h with
  | [], h => simp [do_bgfg] at h
  | [cmd], h =>
    simp only [do_bgfg, Option.some.injEq] at h
    exact hquiet _ h.symm
  | cmd :: arg :: more, h =>
    simp only [do_bgfg] at h
    split at h
    · split at h
      · rw [Option.some.injEq] at h
        exact hquiet _ h.symm
      · refine do_bgfg_found_effect jobs cmd arg _ r h (fun i hi => ?_)
        obtain ⟨hlt, hjid, hpos⟩ := getjobjid_some jobs _ i hi
        refine ⟨hlt, fun hz => ?_⟩
        have := (hinv.1.2.1 _ (List.getElem_mem hlt)).1 hz
        omega
    · split at h
      · rw [Option.some.injEq] at h
        exact hquiet _ h.symm
      · refine do_bgfg_found_effect jobs cmd arg _ r h (fun i hi => ?_)
        obtain ⟨hlt, hpid, hpos⟩ := getjobpid_some jobs _ i hi
        refine ⟨hlt, fun hz => ?_⟩
        omega

theorem fg_only_set_state_fg (jobs : List job_t) (i : Nat) (hi : i < jobs.length)
    (hno : no_fg jobs) : fg_only (set_state jobs i FG) jobs[i].pid := by
  intro j hj hfg
  rw [set_state_eq jobs i FG hi] at hj
  rcases List.mem_or_eq_of_mem_set hj with h | h
  · exact absurd hfg (hno j h)
  · rw [h]

/-- The effect of a successful or failed `addjob` with a new positive pid on the invariant:
every entry of the new list is an old one or has the new pid and the given state. -/
theorem table_inv_addjob (verbose : Bool) (jobs jobs' : List job_t) (pid state r : Int)
    (cmdline out : String) (hinv : table_inv jobs) (hpid : 1 ≤ pid)
    (hfresh : ∀ j ∈ jobs, j.pid ≠ pid)
    (hadd : addjob verbose jobs pid state cmdline = some (r, jobs', out)) :
    table_inv jobs' ∧ ∀ j ∈ jobs', j ∈ jobs ∨ (j.pid = pid ∧ j.state = state) := by
  obtain ⟨hwf, hdp, hpos, hfg⟩ := hinv
  obtain ⟨hwf', hdp'⟩ := wf_addjob verbose jobs jobs' pid state r cmdline out ⟨hwf, hdp⟩
    hfresh hadd
  obtain ⟨r', js, out', h1, h2, _, _, h5⟩ := addjob_cases verbose jobs pid state cmdline hwf
  rw [hadd, Option.some.injEq, Prod.mk.injEq, Prod.mk.injEq] at h1
  obtain ⟨rfl, rfl, rfl⟩ := h1
  have hmem : ∀ j ∈ jobs', j ∈ jobs ∨ (j.pid = pid ∧ j.state = state) := by
    by_cases hc : pid < 1 ∨ full jobs
    · rw [(h2.2 hc).2]
      exact fun j hj => Or.inl hj
    · obtain ⟨_, k, _, i, _, _, _, hset, _, _⟩ := h5 hc
      intro j hj
      rw [hset] at hj
      rcases List.mem_or_eq_of_mem_set hj with h | h
      · exact Or.inl h
      · exact Or.inr (by rw [h]; exact ⟨rfl, rfl⟩)
  refine ⟨⟨hwf', hdp', fun j hj hl => ?_, fun j hj hs => ?_⟩, hmem⟩
  · rcases hmem j hj with h | h
    · exact hpos j h hl
    · rw [h.1]; exact hpid
  · rcases hmem j hj with h | h
    · exact hfg j h hs
    · show j.pid ≠ 0
      rw [h.1]; omega

theorem builtin_cmd_inv (jobs : List job_t) (argv : List String) (r : eval_result)
    (hinv : table_inv jobs) (hno : no_fg jobs) (h : builtin_cmd jobs argv = some r) :
    table_inv r.jobs ∧ loc_inv r.jobs (after_eval r) := by
  have hsame : ∀ (out : String) (e : Option Int), r = ⟨jobs, out, [], none, e⟩ →
      table_inv r.jobs ∧ loc_inv r.jobs (after_eval r) := by
    intro out e hr
    subst hr
    exact ⟨hinv, hno⟩
  match argv, h with
  | [], h => simp [builtin_cmd] at h
  | cmd :: more, h =>
    simp only [builtin_cmd] at h
    split at h
    · rw [Option.some.injEq] at h
      exact hsame _ _ h.symm
    · split at h
      · cases hb : do_bgfg jobs (cmd :: more) with
        | none => simp [hb] at h
        | some b =>
          simp only [hb, Option.some.injEq] at h
          subst h
          rcases do_bgfg_effect jobs (cmd :: more) b hinv hb with ⟨hw, hq⟩ | ⟨i, hi, hl, hj, hw⟩
          · refine ⟨table_inv_quiet jobs b.jobs hq hinv, ?_⟩
            simp only [after_eval, hw]
            exact no_fg_quiet jobs b.jobs hq hno
          · refine ⟨by rw [hj]; exact table_inv_set_state jobs i FG hi hl hinv, ?_⟩
            simp only [after_eval, hw, loc_inv]
            refine ⟨hinv.2.2.1 _ (List.getElem_mem hi) hl, ?_⟩
            rw [hj]
            exact fg_only_set_state_fg jobs i hi hno
      · split at h
        · rw [Option.some.injEq] at h
          exact hsame _ _ h.symm
        · rw [Option.some.injEq] at h
          exact hsame _ _ h.symm

/-- Evaluating a command line at the read/eval loop keeps the invariant: afterwards either no
job is in the foreground, or the shell is about to wait for the only foreground job. -/
theorem eval_inv (verbose : Bool) (jobs : List job_t) (cmdline : String) (pid : Int)
    (r : eval_result) (hinv : table_inv jobs) (hno : no_fg jobs) (hpid : 1 ≤ pid)
    (hfresh : ∀ j ∈ jobs, j.pid ≠ pid) (h : eval verbose jobs cmdline pid = some r) :
    table_inv r.jobs ∧ loc_inv r.jobs (after_eval r) := by
  simp only [eval] at h
  cases hparse : parseline cmdline with
  | none => simp [hparse] at h
  | some argv =>
    simp only [hparse] at h
    cases hlast : argv.getLast? with
    | none =>
      simp only [hlast, Option.some.injEq] at h
      subst h
      exact ⟨hinv, hno⟩
    | some last =>
      simp only [hlast] at h
      split at h
      · exact builtin_cmd_inv jobs argv r hinv hno h
      · split at h
        · exact absurd h (by simp)
        · split at h
          · cases hadd : addjob verbose jobs pid FG cmdline with
            | none => simp [hadd] at h
            | some res =>
              obtain ⟨x, jobs', out⟩ := res
              simp only [hadd, Option.some.injEq] at h
              subst h
              obtain ⟨hinv', hmem⟩ := table_inv_addjob verbose jobs jobs' pid FG x cmdline out
                hinv hpid hfresh hadd
              refine ⟨hinv', hpid, fun j hj hfg => ?_⟩
              rcases hmem j hj with hj' | hj'
              · exact absurd hfg (hno j hj')
              · exact hj'.1
          · cases hadd : addjob verbose jobs pid BG cmdline with
            | none => simp [hadd] at h
            | some res =>
              obtain ⟨x, jobs', out⟩ := res
              simp only [hadd] at h
              cases hd : deref jobs' (getjobpid jobs' pid) with
              | none => simp [hd] at h
              | some j0 =>
                simp only [hd, Option.some.injEq] at h
                subst h
                obtain ⟨hinv', hmem⟩ := table_inv_addjob verbose jobs jobs' pid BG x cmdline
                  out hinv hpid hfresh hadd
                refine ⟨hinv', fun j hj hfg => ?_⟩
                rcases hmem j hj with hj' | hj'
                · exact absurd hfg (hno j hj')
                · rw [hj'.2] at hfg
                  exact absurd hfg (by decide)

theorem fgpid_spec (jobs : List job_t) :
    (fgpid jobs = 0 ∧ no_fg jobs) ∨ (∃ j ∈ jobs, j.state = FG ∧ fgpid jobs = j.pid) := by
  induction jobs with
  | nil => exact Or.inl ⟨rfl, fun j hj => absurd hj (by simp)⟩
  | cons j rest ih =>
    by_cases hs : j.state = FG
    · exact Or.inr ⟨j, List.mem_cons_self _ _, hs, by simp [fgpid, hs]⟩
    · rcases ih with ⟨h0, hno⟩ | ⟨x, hx, hxs, hxp⟩
      · refine Or.inl ⟨by simp [fgpid, hs, h0], fun y hy => ?_⟩
        rcases List.mem_cons.1 hy with rfl | hy
        · exact hs
        · exact hno y hy
      · exact Or.inr ⟨x, List.mem_cons_of_mem _ hx, hxs, by simp [fgpid, hs, hxp]⟩

/-- The first test of `waitfg(pid)`: with no foreground job it returns at once; otherwise it
enters the loop with `fgPG = pid` and `job` pointing to the job. -/
theorem enter_inv (jobs : List job_t) (pid pg : Int) (hinv : table_inv jobs)
    (hloc : loc_inv jobs (.call_waitfg pid)) (hpg : getpgid_answer jobs pid pg) :
    loc_inv jobs (after_enter jobs pid pg) := by
  obtain ⟨hpid, hfg⟩ := hloc
  rcases fgpid_spec jobs with ⟨h0, hno⟩ | ⟨j, hj, hjs, hjp⟩
  · have hne : pg ≠ fgpid jobs := by
      rcases hpg with h | ⟨h, _⟩ <;> omega
    simp only [after_enter, waitfg_enter, hne, decide_False]
    exact hno
  · have hjpid : j.pid = pid := hfg j hj hjs
    have hpgpid : pg = pid := by
      rcases hpg with h | ⟨_, h⟩
      · exact h
      · exact absurd hjpid (h j hj)
    have heq : pg = fgpid jobs := by rw [hjp, hjpid, hpgpid]
    simp only [after_enter, waitfg_enter, heq, decide_True]
    refine ⟨hpid, hfg, by rw [hjp, hjpid], fun i hi hip => ?_⟩
    obtain ⟨i0, hi0, hget, hp0, _, _⟩ := getjobpid_of_mem jobs pid (by omega) ⟨j, hj, hjpid⟩
    rw [hget]
    have : i0 = i := distinct_pids_index jobs hinv.2.1 i0 i hi0 hi (by rw [hp0]; omega)
      (by rw [hp0, hip])
    rw [this]

/-- The loop test of `waitfg(pid)`: it ends the wait only when no job is in the foreground. -/
theorem wake_inv (jobs : List job_t) (pid fgPG pg : Int) (job : Option Nat) (done : Bool)
    (hloc : loc_inv jobs (.in_waitfg pid job fgPG)) (hpg : getpgid_answer jobs pid pg)
    (h : waitfg_done jobs job fgPG pg = some done) :
    loc_inv jobs (if done then .repl else .in_waitfg pid job fgPG) := by
  obtain ⟨hpid, hfg, hfgpg, hpts⟩ := hloc
  cases done with
  | false => exact ⟨hpid, hfg, hfgpg, hpts⟩
  | true =>
    show no_fg jobs
    intro e he hes
    have hep : e.pid = pid := hfg e he hes
    obtain ⟨n, hn, hne⟩ := List.getElem_of_mem he
    have hjob : job = some n := hpts n hn (by rw [hne, hep])
    have hpgpid : pg = fgPG := by
      rcases hpg with h1 | ⟨_, h1⟩
      · rw [h1, hfgpg]
      · exact absurd hep (h1 e he)
    have hd : deref jobs job = some e := by simp [deref, hjob, hn, hne]
    simp only [waitfg_done, hpgpid, ne_eq, not_true_eq_false, if_false, hd, Option.some.injEq,
      decide_eq_true_eq] at h
    exact h hes

/-! ### The `bg` and `fg` built-ins -/

theorem isDigit_not_space (c : Char) (h : c.isDigit = true) : isspace c = false := by
  simp only [Char.isDigit, Bool.and_eq_true, decide_eq_true_eq] at h
  have h1 : 48 ≤ c.toNat := h.1
  have h2 : c.toNat ≤ 57 := h.2
  simp only [isspace, Bool.or_eq_false_iff, Bool.and_eq_false_iff, decide_eq_false_iff_not]
  omega

theorem digits_value_eq_foldl (s : List Char) (h : ∀ c ∈ s, c.isDigit = true) :
    ∀ acc, digits_value acc s = s.foldl (fun a c => 10 * a + (c.toNat - 48)) acc := by
  induction s with
  | nil => intro acc; rfl
  | cons c cs ih =>
    intro acc
    have hc := h c (List.mem_cons_self _ _)
    simp only [digits_value, hc, if_true, List.foldl_cons]
    exact ih (fun x hx => h x (List.mem_cons_of_mem _ hx)) _

/-- On a non-empty string of decimal digits `strtol` returns its value, clamped to `LONG_MAX`.
-/
theorem strtol_decimal (s : List Char) (h : is_decimal s) :
    strtol s = min (decimal_value s : Int) (2 ^ 63 - 1) := by
  obtain ⟨hne, hd⟩ := h
  cases s with
  | nil => exact absurd rfl hne
  | cons c cs =>
    have hc := hd c (List.mem_cons_self _ _)
    have hsp := isDigit_not_space c hc
    have hm : c ≠ '-' := fun e => by rw [e] at hc; exact absurd hc (by decide)
    have hp : c ≠ '+' := fun e => by rw [e] at hc; exact absurd hc (by decide)
    have hdrop : (c :: cs).dropWhile isspace = c :: cs := by simp [List.dropWhile, hsp]
    simp only [strtol, hdrop, List.head?_cons, Option.some.injEq, hm, hp, or_self, if_false,
      decide_False, Bool.false_eq_true]
    rw [digits_value_eq_foldl (c :: cs) hd 0]
    rfl

theorem long_to_int_small (n : Nat) (h : n < 2 ^ 31) :
    long_to_int (min (n : Int) (2 ^ 63 - 1)) = n := by
  have h1 : min (n : Int) (2 ^ 63 - 1) = n := by
    apply min_eq_left
    omega
  rw [h1, long_to_int]
  omega

/-- The two exits of `do_bgfg` on an argument: the syntax error when the number read is 0, the
lookup of that number otherwise. -/
theorem do_bgfg_eq (jobs : List job_t) (cmd arg : String) (more : List String) :
    do_bgfg jobs (cmd :: arg :: more) =
      if bgfg_number arg = 0 then
        some ⟨jobs, cmd ++ ": argument must be a PID or a %jid\n", [], none⟩
      else
        do_bgfg_found jobs cmd arg
          (if arg.data.head? = some '%' then getjobjid jobs (bgfg_number arg)
           else getjobpid jobs (bgfg_number arg)) := by
  by_cases hh : arg.data.head? = some '%'
  · simp only [do_bgfg, bgfg_number, if_pos hh]
  · simp only [do_bgfg, bgfg_number, if_neg hh]

theorem head_append_data (a b : String) (c : Char) (h : a.data.head? = some c) :
    (a ++ b).data.head? = some c := by
  rw [String.data_append]
  cases ha : a.data with
  | nil => rw [ha] at h; simp at h
  | cons x xs => rw [ha] at h; simpa using h

/-- Whatever `do_bgfg` prints after a lookup differs from the syntax error line. -/
theorem do_bgfg_found_out (jobs : List job_t) (cmd arg : String) (jobfound : Option Nat)
    (r : bgfg_result) (hcmd : cmd = "fg" ∨ cmd = "bg")
    (h : do_bgfg_found jobs cmd arg jobfound = some r) :
    r.out ≠ cmd ++ ": argument must be a PID or a %jid\n" := by
  have herr : (cmd ++ ": argument must be a PID or a %jid\n").data.head? = some 'f' ∨
      (cmd ++ ": argument must be a PID or a %jid\n").data.head? = some 'b' := by
    rcases hcmd with rfl | rfl
    · exact Or.inl rfl
    · exact Or.inr rfl
  have hdiff : ∀ c : Char, c ≠ 'f' → c ≠ 'b' → r.out.data.head? = some c →
      r.out ≠ cmd ++ ": argument must be a PID or a %jid\n" := by
    intro c h1 h2 hc heq
    rw [heq] at hc
    rcases herr with h | h
    · rw [h] at hc
      exact h1 (Option.some.inj hc).symm
    · rw [h] at hc
      exact h2 (Option.some.inj hc).symm
  cases jobfound with
  | none =>
    simp only [do_bgfg_found] at h
    split at h
    · rename_i hh
      rw [Option.some.injEq] at h
      subst h
      exact hdiff '%' (by decide) (by decide) (head_append_data _ _ _ hh)
    · rw [Option.some.injEq] at h
      subst h
      exact hdiff '(' (by decide) (by decide)
        (head_append_data _ _ _ (head_append_data _ _ _ rfl))
  | some i =>
    simp only [do_bgfg_found] at h
    cases hj : jobs[i]? with
    | none => simp [hj] at h
    | some j =>
      simp only [hj] at h
      split at h
      · rw [Option.some.injEq] at h
        subst h
        exact hdiff '[' (by decide) (by decide)
          (head_append_data _ _ _ (head_append_data _ _ _ (head_append_data _ _ _
            (head_append_data _ _ _ (head_append_data _ _ _ rfl)))))
      · rw [Option.some.injEq] at h
        subst h
        intro heq
        have hnil : ("" : String).data.head? = none := rfl
        rcases herr with h | h
        · rw [← heq] at h
          exact absurd (hnil.symm.trans h) (by simp)
        · rw [← heq] at h
          exact absurd (hnil.symm.trans h) (by simp)

theorem find_slot_lt (p : job_t → Bool) (jobs : List job_t) (i : Nat)
    (h : find_slot p jobs = some i) : i < jobs.length :=
  (find_slot_some p jobs i h).1

/-- After a lookup `do_bgfg` always has a result. -/
theorem do_bgfg_found_some (jobs : List job_t) (cmd arg : String) (jobfound : Option Nat)
    (hlt : ∀ i, jobfound = some i → i < jobs.length) :
    ∃ r, do_bgfg_found jobs cmd arg jobfound = some r := by
  cases jobfound with
  | none =>
    simp only [do_bgfg_found]
    split <;> exact ⟨_, rfl⟩
  | some i =>
    have hi := hlt i rfl
    have hj : jobs[i]? = some jobs[i] := by simp [hi]
    simp only [do_bgfg_found, hj]
    split <;> exact ⟨_, rfl⟩

theorem bgfg_lookup_lt (jobs : List job_t) (arg : String) (i : Nat)
    (h : (if arg.data.head? = some '%' then getjobjid jobs (bgfg_number arg)
      else getjobpid jobs (bgfg_number arg)) = some i) : i < jobs.length := by
  split at h
  · exact (getjobjid_some jobs _ i h).1
  · exact (getjobpid_some jobs _ i h).1

theorem bgfg_number_decimal (ds : List Char) (hd : is_decimal ds)
    (hlt : decimal_value ds < 2 ^ 31) :
    bgfg_number (String.mk ds) = decimal_value ds ∧
    bgfg_number (String.mk ('%' :: ds)) = decimal_value ds := by
  have hv := long_to_int_small (decimal_value ds) hlt
  have hne : ds.head? ≠ some '%' := by
    obtain ⟨hne, hall⟩ := hd
    cases ds with
    | nil => exact absurd rfl hne
    | cons c cs =>
      intro e
      rw [List.head?_cons, Option.some.injEq] at e
      have := hall c (List.mem_cons_self _ _)
      rw [e] at this
      exact absurd this (by decide)
  constructor
  · simp only [bgfg_number, hne, if_false, strtol_decimal ds hd, hv]
  · simp only [bgfg_number, List.head?_cons, if_true, List.tail_cons, strtol_decimal ds hd, hv]

/-- C11 (argument syntax of `fg` / `bg`) fails as stated, in both directions: `501abc` is
neither a decimal pid nor `%` and a decimal job id, yet `do_bgfg` prints no error and resumes
the job with pid 501; `0` is a non-empty string of decimal digits, yet `do_bgfg` prints the
error line. -/
theorem do_bgfg_syntax_counterexample :
    ¬ spec_bgfg_form "501abc" ∧
    do_bgfg demo_two ["fg", "501abc"] =
      some ⟨demo_two.set 1 ⟨501, 2, FG, "/bin/sleep 8 &\n"⟩, "", [(-501, SIGCONT)], some 501⟩ ∧
    spec_bgfg_form "0" ∧
    do_bgfg demo_two ["fg", "0"] =
      some ⟨demo_two, "fg: argument must be a PID or a %jid\n", [], none⟩ := by
  decide

/-- C11 as amended. For `cmd` in {fg, bg} and every argument string, let `n` be the number
`strtol` reads at the start of the argument (after a leading `%`, if there is one), converted
to `int`. `do_bgfg` prints `<cmd>: argument must be a PID or a %jid`, changing no job and
sending no signal, exactly when `n = 0`; otherwise it looks up job id `n` (after `%`) or pid
`n` and prints something else. For a non-empty string of decimal digits whose value is below
2^31, `n` is that value, with or without the leading `%`. -/
theorem do_bgfg_syntax (jobs : List job_t) (cmd arg : String) (more : List String)
    (hcmd : cmd = "fg" ∨ cmd = "bg") :
    (bgfg_number arg = 0 →
      do_bgfg jobs (cmd :: arg :: more) =
        some ⟨jobs, cmd ++ ": argument must be a PID or a %jid\n", [], none⟩) ∧
    (bgfg_number arg ≠ 0 →
      ∃ r, do_bgfg jobs (cmd :: arg :: more) = some r ∧
        r.out ≠ cmd ++ ": argument must be a PID or a %jid\n" ∧
        do_bgfg_found jobs cmd arg
          (if arg.data.head? = some '%' then getjobjid jobs (bgfg_number arg)
           else getjobpid jobs (bgfg_number arg)) = some r) ∧
    (∀ ds, is_decimal ds → decimal_value ds < 2 ^ 31 →
      bgfg_number (String.mk ds) = decimal_value ds ∧
      bgfg_number (String.mk ('%' :: ds)) = decimal_value ds) := by
  refine ⟨fun h0 => by rw [do_bgfg_eq, if_pos h0], fun hn => ?_,
    fun ds hd hlt => bgfg_number_decimal ds hd hlt⟩
  obtain ⟨r, hr⟩ := do_bgfg_found_some jobs cmd arg _ (bgfg_lookup_lt jobs arg)
  exact ⟨r, by rw [do_bgfg_eq, if_neg hn, hr], do_bgfg_found_out jobs cmd arg _ r hcmd hr, hr⟩

theorem do_bgfg_syntax_witness :
    (bgfg_number "%2" = 0 →
      do_bgfg demo_two ["bg", "%2"] =
        some ⟨demo_two, "bg" ++ ": argument must be a PID or a %jid\n", [], none⟩) ∧
    (bgfg_number "%2" ≠ 0 →
      ∃ r, do_bgfg demo_two ["bg", "%2"] = some r ∧
        r.out ≠ "bg" ++ ": argument must be a PID or a %jid\n" ∧
        do_bgfg_found demo_two "bg" "%2"
          (if ("%2" : String).data.head? = some '%' then getjobjid demo_two (bgfg_number "%2")
           else getjobpid demo_two (bgfg_number "%2")) = some r) ∧
    (∀ ds, is_decimal ds → decimal_value ds < 2 ^ 31 →
      bgfg_number (String.mk ds) = decimal_value ds ∧
      bgfg_number (String.mk ('%' :: ds)) = decimal_value ds) :=
  do_bgfg_syntax demo_two "bg" "%2" [] (Or.inr rfl)

theorem head_mk_percent (ds : List Char) :
    (String.mk ('%' :: ds)).data.head? = some '%' := rfl

theorem head_decimal (ds : List Char) (hd : is_decimal ds) :
    (String.mk ds).data.head? ≠ some '%' := by
  obtain ⟨hne, hall⟩ := hd
  cases ds with
  | nil => exact absurd rfl hne
  | cons c cs =>
    intro e
    have e' : c = '%' := by simpa using e
    have := hall c (List.mem_cons_self _ _)
    rw [e'] at this
    exact absurd this (by decide)

theorem getjobpid_none (jobs : List job_t) (pid : Int) (h : ∀ x ∈ jobs, x.pid ≠ pid) :
    getjobpid jobs pid = none := by
  by_cases hp : pid < 1
  · simp [getjobpid, hp]
  · rw [getjobpid, if_neg hp, find_slot_none]
    intro x hx
    simpa using h x hx

theorem getjobjid_none (jobs : List job_t) (jid : Int) (h : ∀ x ∈ jobs, x.jid ≠ jid) :
    getjobjid jobs jid = none := by
  by_cases hp : jid < 1
  · simp [getjobjid, hp]
  · rw [getjobjid, if_neg hp, find_slot_none]
    intro x hx
    simpa using h x hx

/-- The three error exits of `do_bgfg` that leave everything as it is. -/
theorem do_bgfg_error_exits (jobs : List job_t) (cmd : String) (more : List String)
    (ds : List Char) (hd : is_decimal ds) (h1 : 1 ≤ decimal_value ds)
    (hlt : decimal_value ds < 2 ^ 31) :
    do_bgfg jobs [cmd] =
      some ⟨jobs, cmd ++ " command requires PID or %jid argument\n", [], none⟩ ∧
    ((∀ x ∈ jobs, x.pid = 0 → x.jid = 0) →
      (∀ x ∈ jobs, live x → x.jid ≠ (decimal_value ds : Int)) →
      do_bgfg jobs (cmd :: String.mk ('%' :: ds) :: more) =
        some ⟨jobs, String.mk ('%' :: ds) ++ ": No such job\n", [], none⟩) ∧
    ((∀ x ∈ jobs, live x → x.pid ≠ (decimal_value ds : Int)) →
      do_bgfg jobs (cmd :: String.mk ds :: more) =
        some ⟨jobs, "(" ++ String.mk ds ++ "): No such process\n", [], none⟩) := by
  obtain ⟨hn1, hn2⟩ := bgfg_number_decimal ds hd hlt
  have hv0 : (decimal_value ds : Int) ≠ 0 := by omega
  refine ⟨rfl, fun hempty hno => ?_, fun hno => ?_⟩
  · have hnone : getjobjid jobs (decimal_value ds : Int) = none := by
      apply getjobjid_none
      intro x hx hxj
      refine hno x hx (fun hp => ?_) hxj
      have := hempty x hx hp
      omega
    rw [do_bgfg_eq, hn2, if_neg hv0, if_pos (head_mk_percent ds), hnone]
    simp only [do_bgfg_found, List.head?_cons, if_true]
  · have hnone : getjobpid jobs (decimal_value ds : Int) = none := by
      apply getjobpid_none
      intro x hx hxp
      refine hno x hx (fun hp => ?_) hxp
      omega
    rw [do_bgfg_eq, hn1, if_neg hv0, if_neg (head_decimal ds hd), hnone]
    simp only [do_bgfg_found, head_decimal ds hd, if_false]

/-- C12 (missing-argument and no-match errors of `fg` / `bg`) fails as stated. No live job of
`demo_two` has job id 0 or pid 0, yet `fg %0` and `fg 0` print the syntax error and not the
no-match lines. No live job has job id 4294967297 or pid 4294967797, yet the conversion to
`int` makes `fg %4294967297` resume job 1 and `bg 4294967797` resume the job with pid 501. -/
theorem do_bgfg_no_match_counterexample :
    (∀ x ∈ demo_two, live x → x.jid ≠ 0 ∧ x.pid ≠ 0 ∧ x.jid ≠ 4294967297 ∧
      x.pid ≠ 4294967797) ∧
    do_bgfg demo_two ["fg", "%0"] =
      some ⟨demo_two, "fg: argument must be a PID or a %jid\n", [], none⟩ ∧
    do_bgfg demo_two ["fg", "0"] =
      some ⟨demo_two, "fg: argument must be a PID or a %jid\n", [], none⟩ ∧
    do_bgfg demo_two ["fg", "%4294967297"] =
      some ⟨demo_two.set 0 ⟨500, 1, FG, "/bin/sleep 9 &\n"⟩, "", [(-500, SIGCONT)],
        some 500⟩ ∧
    do_bgfg demo_two ["bg", "4294967797"] =
      some ⟨demo_two, "[2] (501) /bin/sleep 8 &\n", [(-501, SIGCONT)], none⟩ := by
  decide

/-- C12 as amended. For every `cmd` and job list:
with no argument `do_bgfg` prints `<cmd> command requires PID or %jid argument`; with `%j`,
`j` a string of decimal digits whose value is in 1..2^31-1 and is the job id of no live job,
it prints `%j: No such job` (empty slots having job id 0, as `clearjob` leaves them); with a
string `p` of decimal digits whose value is in 1..2^31-1 and is the pid of no live job, it
prints `(p): No such process`. In each case the job list is unchanged, no `kill` is made and
`waitfg` is not called. -/
theorem do_bgfg_no_match (jobs : List job_t) (cmd : String) (more : List String)
    (ds : List Char) (hd : is_decimal ds) (h1 : 1 ≤ decimal_value ds)
    (hlt : decimal_value ds < 2 ^ 31) :
    do_bgfg jobs [cmd] =
      some ⟨jobs, cmd ++ " command requires PID or %jid argument\n", [], none⟩ ∧
    ((∀ x ∈ jobs, x.pid = 0 → x.jid = 0) →
      (∀ x ∈ jobs, live x → x.jid ≠ (decimal_value ds : Int)) →
      do_bgfg jobs (cmd :: String.mk ('%' :: ds) :: more) =
        some ⟨jobs, String.mk ('%' :: ds) ++ ": No such job\n", [], none⟩) ∧
    ((∀ x ∈ jobs, live x → x.pid ≠ (decimal_value ds : Int)) →
      do_bgfg jobs (cmd :: String.mk ds :: more) =
        some ⟨jobs, "(" ++ String.mk ds ++ "): No such process\n", [], none⟩) :=
  do_bgfg_error_exits jobs cmd more ds hd h1 hlt

theorem do_bgfg_no_match_witness :
    do_bgfg demo_two ["fg"] =
      some ⟨demo_two, "fg" ++ " command requires PID or %jid argument\n", [], none⟩ ∧
    ((∀ x ∈ demo_two, x.pid = 0 → x.jid = 0) →
      (∀ x ∈ demo_two, live x → x.jid ≠ (decimal_value ['9'] : Int)) →
      do_bgfg demo_two ("fg" :: String.mk ('%' :: ['9']) :: []) =
        some ⟨demo_two, String.mk ('%' :: ['9']) ++ ": No such job\n", [], none⟩) ∧
    ((∀ x ∈ demo_two, live x → x.pid ≠ (decimal_value ['9'] : Int)) →
      do_bgfg demo_two ("fg" :: String.mk ['9'] :: []) =
        some ⟨demo_two, "(" ++ String.mk ['9'] ++ "): No such process\n", [], none⟩) :=
  do_bgfg_no_match demo_two "fg" [] ['9'] (by decide) (by decide) (by decide)

theorem do_bgfg_no_match_demo :
    do_bgfg demo_two ["fg", "%9"] = some ⟨demo_two, "%9: No such job\n", [], none⟩ ∧
    do_bgfg demo_two ["bg", "9"] = some ⟨demo_two, "(9): No such process\n", [], none⟩ ∧
    do_bgfg demo_two ["fg"] =
      some ⟨demo_two, "fg command requires PID or %jid argument\n", [], none⟩ := by
  decide

/-- In a job list with distinct live job ids, a job id names at most one live slot. -/
theorem distinct_jids_index (jobs : List job_t) (hd : distinct_jids jobs) (a b : Nat)
    (ha : a < jobs.length) (hb : b < jobs.length) (hla : live jobs[a]) (hlb : live jobs[b])
    (he : jobs[a].jid = jobs[b].jid) : a = b := by
  have hp := List.pairwise_iff_getElem.1 hd
  rcases Nat.lt_trichotomy a b with h | h | h
  · exact absurd he (hp a b ha hb h hla hlb)
  · exact h
  · exact absurd he.symm (hp b a hb ha h hlb hla)

theorem getjobpid_unique (jobs : List job_t) (i : Nat) (hi : i < jobs.length)
    (hdp : distinct_pids jobs) (hpos : 1 ≤ jobs[i].pid) :
    getjobpid jobs jobs[i].pid = some i := by
  obtain ⟨i0, hi0, hget, hp0, _, _⟩ := getjobpid_of_mem jobs jobs[i].pid (by omega)
    ⟨jobs[i], List.getElem_mem hi, rfl⟩
  have : i0 = i := distinct_pids_index jobs hdp i0 i hi0 hi (by rw [hp0]; omega) hp0
  rw [hget, this]

theorem getjobjid_unique (jobs : List job_t) (i : Nat) (hi : i < jobs.length)
    (hkeys : ∀ x ∈ jobs, x.pid = 0 ↔ x.jid = 0) (hdj : distinct_jids jobs)
    (hlive : live jobs[i]) (hpos : 1 ≤ jobs[i].jid) :
    getjobjid jobs jobs[i].jid = some i := by
  have hp : ¬ jobs[i].jid < 1 := by omega
  cases hf : find_slot (fun j => decide (j.jid = jobs[i].jid)) jobs with
  | none =>
    have := (find_slot_none _ jobs).1 hf jobs[i] (List.getElem_mem hi)
    simp at this
  | some i0 =>
    obtain ⟨hi0, h1, _⟩ := find_slot_some _ jobs i0 hf
    have hj0 : jobs[i0].jid = jobs[i].jid := by simpa using h1
    have hl0 : live jobs[i0] := by
      intro hz
      have := (hkeys _ (List.getElem_mem hi0)).1 hz
      omega
    have : i0 = i := distinct_jids_index jobs hdj i0 i hi0 hi hl0 hlive hj0
    rw [getjobjid, if_neg hp, hf, this]

/-- What `bg` and `fg` do to the live job that their argument names. -/
theorem do_bgfg_named (jobs : List job_t) (i : Nat) (hi : i < jobs.length) (ds : List Char)
    (arg : String) (more : List String)
    (hkeys : ∀ x ∈ jobs, x.pid = 0 ↔ x.jid = 0) (hdp : distinct_pids jobs)
    (hdj : distinct_jids jobs) (hlive : live jobs[i]) (hd : is_decimal ds)
    (hlt : decimal_value ds < 2 ^ 31)
    (hname : (arg = String.mk ds ∧ jobs[i].pid = (decimal_value ds : Int)) ∨
      (arg = String.mk ('%' :: ds) ∧ jobs[i].jid = (decimal_value ds : Int))) :
    do_bgfg jobs ("bg" :: arg :: more) =
      some ⟨jobs.set i ⟨jobs[i].pid, jobs[i].jid, BG, jobs[i].cmdline⟩,
        "[" ++ fmt_d jobs[i].jid ++ "] (" ++ fmt_d jobs[i].pid ++ ") " ++ jobs[i].cmdline,
        [(-jobs[i].pid, SIGCONT)], none⟩ ∧
    do_bgfg jobs ("fg" :: arg :: more) =
      some ⟨jobs.set i ⟨jobs[i].pid, jobs[i].jid, FG, jobs[i].cmdline⟩, "",
        [(-jobs[i].pid, SIGCONT)], some jobs[i].pid⟩ ∧
    (∀ (s : Int) (k : Nat), k ≠ i →
      (jobs.set i ⟨jobs[i].pid, jobs[i].jid, s, jobs[i].cmdline⟩)[k]? = jobs[k]?) := by
  obtain ⟨hn1, hn2⟩ := bgfg_number_decimal ds hd hlt
  have hget : jobs[i]? = some jobs[i] := by simp [hi]
  have hjz : jobs[i].jid ≠ 0 := fun hz => hlive ((hkeys _ (List.getElem_mem hi)).2 hz)
  have hlook : bgfg_number arg ≠ 0 ∧
      (if arg.data.head? = some '%' then getjobjid jobs (bgfg_number arg)
        else getjobpid jobs (bgfg_number arg)) = some i := by
    rcases hname with ⟨harg, hv⟩ | ⟨harg, hv⟩
    · have hpos : 1 ≤ jobs[i].pid := by
        have : jobs[i].pid ≠ 0 := hlive
        omega
      rw [harg, hn1, if_neg (head_decimal ds hd), ← hv]
      exact ⟨by omega, getjobpid_unique jobs i hi hdp hpos⟩
    · have hpos : 1 ≤ jobs[i].jid := by omega
      rw [harg, hn2, if_pos (head_mk_percent ds), ← hv]
      exact ⟨by omega, getjobjid_unique jobs i hi hkeys hdj hlive hpos⟩
  refine ⟨?_, ?_, fun s k hk => by simp [List.getElem?_set, Ne.symm hk]⟩
  · rw [do_bgfg_eq, if_neg hlook.1, hlook.2]
    simp [do_bgfg_found, hget, set_state]
  · rw [do_bgfg_eq, if_neg hlook.1, hlook.2]
    have hne : ¬ ("fg" = "bg") := by decide
    simp [do_bgfg_found, hget, set_state, hne]

/-- C13 (state change by `fg` / `bg`). In a job list with unique keys (distinct live pids,
distinct live job ids, a slot having pid 0 exactly when it has job id 0), let the argument
name the live job `J` in slot `i`, by its pid in decimal or by `%` and its job id in decimal
(values below 2^31). Then `bg` sets `J`'s state to BG, prints `[jid] (pid) ` followed by `J`'s
stored command line, and calls `kill(-J.pid, SIGCONT)`, without waiting; `fg` sets `J`'s state
to FG, calls `kill(-J.pid, SIGCONT)` and ends with the call `waitfg(J.pid)`. In both cases
`J`'s pid, job id and command line and every other slot are unchanged. -/
theorem do_bgfg_resumes (jobs : List job_t) (i : Nat) (hi : i < jobs.length) (ds : List Char)
    (arg : String) (more : List String)
    (hkeys : ∀ x ∈ jobs, x.pid = 0 ↔ x.jid = 0) (hdp : distinct_pids jobs)
    (hdj : distinct_jids jobs) (hlive : live jobs[i]) (hd : is_decimal ds)
    (hlt : decimal_value ds < 2 ^ 31)
    (hname : (arg = String.mk ds ∧ jobs[i].pid = (decimal_value ds : Int)) ∨
      (arg = String.mk ('%' :: ds) ∧ jobs[i].jid = (decimal_value ds : Int))) :
    do_bgfg jobs ("bg" :: arg :: more) =
      some ⟨jobs.set i ⟨jobs[i].pid, jobs[i].jid, BG, jobs[i].cmdline⟩,
        "[" ++ fmt_d jobs[i].jid ++ "] (" ++ fmt_d jobs[i].pid ++ ") " ++ jobs[i].cmdline,
        [(-jobs[i].pid, SIGCONT)], none⟩ ∧
    do_bgfg jobs ("fg" :: arg :: more) =
      some ⟨jobs.set i ⟨jobs[i].pid, jobs[i].jid, FG, jobs[i].cmdline⟩, "",
        [(-jobs[i].pid, SIGCONT)], some jobs[i].pid⟩ ∧
    (∀ (s : Int) (k : Nat), k ≠ i →
      (jobs.set i ⟨jobs[i].pid, jobs[i].jid, s, jobs[i].cmdline⟩)[k]? = jobs[k]?) :=
  do_bgfg_named jobs i hi ds arg more hkeys hdp hdj hlive hd hlt hname

theorem do_bgfg_resumes_witness :
    do_bgfg demo_jobs ("bg" :: "%3" :: []) =
      some ⟨demo_jobs.set 2 ⟨502, 3, BG, "/bin/cat\n"⟩, "[3] (502) /bin/cat\n",
        [(-502, SIGCONT)], none⟩ ∧
    do_bgfg demo_jobs ("fg" :: "%3" :: []) =
      some ⟨demo_jobs.set 2 ⟨502, 3, FG, "/bin/cat\n"⟩, "", [(-502, SIGCONT)], some 502⟩ ∧
    (∀ (s : Int) (k : Nat), k ≠ 2 →
      (demo_jobs.set 2 ⟨502, 3, s, "/bin/cat\n"⟩)[k]? = demo_jobs[k]?) :=
  do_bgfg_resumes demo_jobs 2 (by decide) ['3'] "%3" [] (by decide) (by decide) (by decide)
    (by decide) (by decide) (by decide) (Or.inr ⟨rfl, by decide⟩)

/-! ### The foreground wait -/

/-- A quiet change makes no entry a foreground entry. -/
theorem fg_index_quiet (jobs jobs' : List job_t) (hq : quiet_change jobs jobs') (n : Nat)
    (hn' : n < jobs'.length) (hfg : jobs'[n].state = FG) :
    ∃ hn : n < jobs.length, jobs[n].state = FG := by
  rcases hq with rfl | ⟨i, s, hi, _, hs, rfl⟩ | ⟨i, rfl⟩
  · exact ⟨hn', hfg⟩
  · have hn : n < jobs.length := by simpa [set_state_eq jobs i s hi] using hn'
    refine ⟨hn, ?_⟩
    simp only [set_state_eq jobs i s hi, List.getElem_set] at hfg
    by_cases e : i = n
    · rw [if_pos e] at hfg
      exact absurd hfg hs
    · rw [if_neg e] at hfg
      exact hfg
  · have hn : n < jobs.length := by simpa using hn'
    refine ⟨hn, ?_⟩
    simp only [List.getElem_set] at hfg
    by_cases e : i = n
    · rw [if_pos e] at hfg
      exact absurd hfg (by decide)
    · rw [if_neg e] at hfg
      exact hfg

theorem wait_inv_quiet (jobs jobs' : List job_t) (pid fgPG : Int) (job : Option Nat)
    (hq : quiet_change jobs jobs')
    (h : table_inv jobs ∧ fg_only jobs pid ∧ fg_points jobs pid fgPG job) :
    table_inv jobs' ∧ fg_only jobs' pid ∧ fg_points jobs' pid fgPG job := by
  refine ⟨table_inv_quiet jobs jobs' hq h.1, fg_only_quiet jobs jobs' pid hq h.2.1,
    fun n hn' hfg => ?_⟩
  obtain ⟨hn, hfg0⟩ := fg_index_quiet jobs jobs' hq n hn' hfg
  exact h.2.2 n hn hfg0

theorem wait_inv_reap_all (pid fgPG : Int) (job : Option Nat) (evs : List child_event) :
    ∀ (jobs jobs' : List job_t) (out : String), reap_all jobs evs = some (jobs', out) →
      table_inv jobs ∧ fg_only jobs pid ∧ fg_points jobs pid fgPG job →
      table_inv jobs' ∧ fg_only jobs' pid ∧ fg_points jobs' pid fgPG job := by
  induction evs with
  | nil =>
    intro jobs jobs' out h hinv
    simp only [reap_all, Option.some.injEq, Prod.mk.injEq] at h
    rw [← h.1]
    exact hinv
  | cons ev rest ih =>
    intro jobs jobs' out h hinv
    simp only [reap_all, reap_one] at h
    cases hh : sigchld_handler jobs [ev] with
    | none => simp [hh] at h
    | some res =>
      obtain ⟨j1, o1, p1⟩ := res
      simp only [hh] at h
      cases hr : reap_all j1 rest with
      | none => simp [hr] at h
      | some res2 =>
        obtain ⟨j2, o2⟩ := res2
        simp only [hr, Option.some.injEq, Prod.mk.injEq] at h
        rw [← h.1]
        exact ih j1 j2 o2 hr
          (wait_inv_quiet jobs j1 pid fgPG job (sigchld_handler_quiet jobs j1 [ev] p1 o1 hh)
            hinv)

/-- The loop of `waitfg(pid)` returns only with a job list that holds no foreground job. -/
theorem waitfg_loop_returned (pid fgPG : Int) (job : Option Nat) (wakeups : List wakeup) :
    ∀ (jobs jobs' : List job_t) (out out' : String),
      table_inv jobs ∧ fg_only jobs pid ∧ fg_points jobs pid fgPG job →
      wakeups_ok pid jobs wakeups →
      waitfg_loop job fgPG jobs out wakeups = some (.returned jobs' out') →
      no_fg jobs' := by
  induction wakeups with
  | nil =>
    intro jobs jobs' out out' _ _ h
    simp [waitfg_loop] at h
  | cons w rest ih =>
    intro jobs jobs' out out' hinv hok h
    simp only [waitfg_loop] at h
    simp only [wakeups_ok] at hok
    cases hr : reap_all jobs w.events with
    | none => simp [hr] at h
    | some res =>
      obtain ⟨j1, o1⟩ := res
      simp only [hr] at h hok
      obtain ⟨hpg, hok'⟩ := hok
      have hinv1 := wait_inv_reap_all pid fgPG job w.events jobs j1 o1 hr hinv
      cases hd : waitfg_done j1 job fgPG w.pidPG with
      | none => simp [hd] at h
      | some done =>
        cases done with
        | false =>
          simp only [hd] at h
          exact ih j1 jobs' _ out' hinv1 hok' h
        | true =>
          simp only [hd, Option.some.injEq, wait_outcome.returned.injEq] at h
          rw [← h.1]
          intro e he hes
          have hep : e.pid = pid := hinv1.2.1 e he hes
          obtain ⟨n, hn, hne⟩ := List.getElem_of_mem he
          obtain ⟨hfgpg, hjob⟩ := hinv1.2.2 n hn (by rw [hne]; exact hes)
          have hpgpid : w.pidPG = fgPG := by
            rcases hpg with h1 | ⟨_, h1⟩
            · rw [h1, hfgpg]
            · exact absurd hep (h1 e he)
          have hderef : deref j1 job = some e := by simp [deref, hjob, hn, hne]
          simp only [waitfg_done, hpgpid, ne_eq, not_true_eq_false, if_false, hderef,
            Option.some.injEq, decide_eq_true_eq] at hd
          exact hd hes

/-- Under the invariant of the shell, with every foreground entry holding `pid` and the
kernel's answers of `getpgid`, `waitfg(pid)` returns only with a job list that holds no
foreground job. -/
theorem waitfg_returned_no_fg (jobs jobs' : List job_t) (pid pidPG : Int)
    (wakeups : List wakeup) (out : String) (hinv : table_inv jobs) (hfg : fg_only jobs pid)
    (hpg : getpgid_answer jobs pid pidPG) (hok : wakeups_ok pid jobs wakeups)
    (h : waitfg jobs pid pidPG wakeups = some (.returned jobs' out)) : no_fg jobs' := by
  by_cases hent : pidPG = fgpid jobs
  · simp only [waitfg, waitfg_enter, hent, decide_True] at h
    refine waitfg_loop_returned pid (fgpid jobs) (getjobpid jobs pid) wakeups jobs jobs' "" out
      ⟨hinv, hfg, fun n hn hs => ?_⟩ hok h
    have hin := List.getElem_mem hn
    have hp : jobs[n].pid = pid := hfg _ hin hs
    have hlive : live jobs[n] := hinv.2.2.2 _ hin hs
    have hpos : 1 ≤ jobs[n].pid := hinv.2.2.1 _ hin hlive
    refine ⟨?_, by rw [← hp]; exact getjobpid_unique jobs n hn hinv.2.1 hpos⟩
    rcases fgpid_spec jobs with ⟨_, hno⟩ | ⟨j, hj, hjs, hjp⟩
    · exact absurd hs (hno _ hin)
    · rw [hjp, hfg j hj hjs]
  · simp only [waitfg, waitfg_enter, hent, decide_False, Option.some.injEq,
      wait_outcome.returned.injEq] at h
    rw [← h.1]
    rcases fgpid_spec jobs with ⟨_, hno⟩ | ⟨j, hj, hjs, hjp⟩
    · exact hno
    · exfalso
      have hjpid : j.pid = pid := hfg j hj hjs
      rcases hpg with h1 | ⟨_, h1⟩
      · exact hent (by rw [h1, hjp, hjpid])
      · exact h1 j hj hjpid

/-- C14 (foreground-wait postcondition) fails as stated. With two foreground entries,
`waitfg(501)` returns at once because `fgpid` yields the pid of the first one, although job
501 is in state FG. With one foreground job 500 and a wake-up after which `getpgid(500)`
answers another process group, `waitfg(500)` returns although job 500 is still in state FG. -/
theorem waitfg_returns_while_fg :
    waitfg demo_two_fg 501 501 [] = some (.returned demo_two_fg "") ∧
    (∃ j ∈ demo_two_fg, j.pid = 501 ∧ j.state = FG) ∧
    waitfg demo_fg_jobs 500 500 [⟨[], 777⟩] = some (.returned demo_fg_jobs "") ∧
    (∃ j ∈ demo_fg_jobs, j.pid = 500 ∧ j.state = FG) := by
  decide

/-- C14 as amended. Let the job list satisfy the invariant of the shell (well-formed, distinct
live pids, live pids positive, foreground entries live), let every foreground entry have the
pid `pid`, and let `getpgid(pid)` answer as the kernel does along the run (`pid`, or -1 when no
entry holds `pid`), whatever the reaper updates before each wake-up. Whenever `waitfg(pid)`
returns, no job with that pid exists or that job's state is not FG: `waitfg` does not return
while the job list holds a job with that pid in state FG. -/
theorem waitfg_postcondition (jobs jobs' : List job_t) (pid pidPG : Int)
    (wakeups : List wakeup) (out : String) (hinv : table_inv jobs) (hfg : fg_only jobs pid)
    (hpg : getpgid_answer jobs pid pidPG) (hok : wakeups_ok pid jobs wakeups)
    (h : waitfg jobs pid pidPG wakeups = some (.returned jobs' out)) :
    ∀ j ∈ jobs', j.pid = pid → j.state ≠ FG :=
  fun j hj _ => waitfg_returned_no_fg jobs jobs' pid pidPG wakeups out hinv hfg hpg hok h j hj

theorem demo_wakeups_ok : wakeups_ok 500 demo_fg_jobs demo_wakeups :=
  ⟨Or.inl rfl, Or.inl rfl, trivial⟩

/-- A spurious wake-up leaves `waitfg` suspended; it returns after the stop was reaped. -/
theorem waitfg_demo :
    waitfg demo_fg_jobs 500 500 [⟨[], 500⟩] = some (.suspended demo_fg_jobs "") ∧
    waitfg demo_fg_jobs 500 500 demo_wakeups =
      some (.returned (demo_fg_jobs.set 0 ⟨500, 1, ST, "/bin/sleep 5\n"⟩)
        "Job [1] (500) stopped by signal 20\n") := by
  decide

theorem waitfg_postcondition_witness :
    waitfg demo_fg_jobs 500 500 demo_wakeups =
      some (.returned (demo_fg_jobs.set 0 ⟨500, 1, ST, "/bin/sleep 5\n"⟩)
        "Job [1] (500) stopped by signal 20\n") ∧
    ∀ j ∈ demo_fg_jobs.set 0 ⟨500, 1, ST, "/bin/sleep 5\n"⟩, j.pid = 500 → j.state ≠ FG :=
  ⟨waitfg_demo.2,
    waitfg_postcondition demo_fg_jobs (demo_fg_jobs.set 0 ⟨500, 1, ST, "/bin/sleep 5\n"⟩) 500
      500 demo_wakeups "Job [1] (500) stopped by signal 20\n" (by decide) (by decide)
      (Or.inl rfl) demo_wakeups_ok waitfg_demo.2⟩

/-! ### Pipelines -/

/-- C15 (pipeline segmentation), evaluated on `/bin/ls|/usr/bin/wc -l`. `pipe_tokenizer`
returns the two segments, but `pipe_eval` hands the first one, `/bin/ls`, to `parseline`,
which overwrites its last character with a space (the place of the newline of a whole line):
stage 0 executes `/bin/l`, not the token `/bin/ls` of its segment. With spaces around the `|`
the stages are the tokens of their segments, also for a background line and with
redirections. -/
theorem pipe_eval_drops_last_char :
    pipe_tokenizer "/bin/ls|/usr/bin/wc -l\n" = ["/bin/ls", "/usr/bin/wc -l\n"] ∧
    eval_child_pipeline "/bin/ls|/usr/bin/wc -l\n" =
      some ([["/bin/l"], ["/usr/bin/wc", "-l"]], "") ∧
    spec_stage_argv "/bin/ls" = ["/bin/ls"] ∧
    spec_stage_argv "/usr/bin/wc -l\n" = ["/usr/bin/wc", "-l"] ∧
    eval_child_pipeline "/bin/ls | /usr/bin/wc -l\n" =
      some ([["/bin/ls"], ["/usr/bin/wc", "-l"]], "") ∧
    eval_child_pipeline "/bin/cat < in.txt | /usr/bin/wc -l > out.txt &\n" =
      some ([["/bin/cat"], ["/usr/bin/wc", "-l"]], "") := by
  decide

/-! ### Two foreground jobs -/

/-- The function `do_bgfg` is its lookup followed by its second half: a run of `do_bgfg` with no
signal in between is `do_bgfg_lookup` and then `do_bgfg_found` on the same job list. -/
theorem do_bgfg_eq_lookup (jobs : List job_t) (cmd arg : String) (more : List String) :
    do_bgfg jobs (cmd :: arg :: more) =
      match do_bgfg_lookup jobs arg with
      | none => some ⟨jobs, cmd ++ ": argument must be a PID or a %jid\n", [], none⟩
      | some jobfound => do_bgfg_found jobs cmd arg jobfound := by
  by_cases hh : arg.data.head? = some '%'
  · by_cases h0 : long_to_int (strtol arg.data.tail) = 0
    · simp only [do_bgfg, do_bgfg_lookup, if_pos hh, if_pos h0]
    · simp only [do_bgfg, do_bgfg_lookup, if_pos hh, if_neg h0]
  · by_cases h0 : long_to_int (strtol arg.data) = 0
    · simp only [do_bgfg, do_bgfg_lookup, if_neg hh, if_pos h0]
    · simp only [do_bgfg, do_bgfg_lookup, if_neg hh, if_neg h0]

/-- The run that leads to two foreground jobs, call by call. Jobs 1 (pid 500) and 2 (pid 501)
run in the background. `fg %1` finds job 1 in slot 0; child 500 exits and the handler clears
slot 0; `do_bgfg` then writes FG into the cleared slot and calls `waitfg(0)`, which returns at
once (`getpgid(0)` is the shell's own group, here 400, and `fgpid` yields 0). `fg %2` makes
job 2 the foreground job, but `waitfg(501)` returns at once, since `fgpid` yields the pid 0 of
slot 0. The foreground launch of `/bin/cat` (pid 502) then takes slot 0. -/
theorem race_trace :
    eval false (initjobs (List.replicate 16 empty_slot)) "/bin/sleep 9 &\n" 500 =
      some ⟨demo_reached, "[1] (500) /bin/sleep 9 &\n", [], none, none⟩ ∧
    eval false demo_reached "/bin/sleep 8 &\n" 501 =
      some ⟨race_jobs, "[2] (501) /bin/sleep 8 &\n", [], none, none⟩ ∧
    parseline "fg %1\n" = some ["fg", "%1"] ∧
    do_bgfg_lookup race_jobs "%1" = some (some 0) ∧
    reap_all race_jobs [(500, .exited 0)] = some (race_jobs.set 0 empty_slot, "") ∧
    do_bgfg_found (race_jobs.set 0 empty_slot) "fg" "%1" (some 0) =
      some ⟨race_ghost, "", [(0, SIGCONT)], some 0⟩ ∧
    waitfg race_ghost 0 400 [] = some (.returned race_ghost "") ∧
    eval false race_ghost "fg %2\n" 502 =
      some ⟨race_ghost_fg, "", [(-501, SIGCONT)], some 501, none⟩ ∧
    waitfg race_ghost_fg 501 501 [] = some (.returned race_ghost_fg "") ∧
    eval false race_ghost_fg "/bin/cat\n" 502 =
      some ⟨race_two_fg, "", [], some 502, none⟩ := by
  decide

theorem race_two_fg_reachable : shell_reachable ⟨race_two_fg, .call_waitfg 502⟩ := by
  have h0 : shell_reachable ⟨initjobs (List.replicate 16 empty_slot), .repl⟩ :=
    shell_reachable.start _ (by decide)
  have h1 : shell_reachable ⟨demo_reached, .repl⟩ :=
    shell_reachable.next _ _ h0
      (shell_step.command ⟨initjobs (List.replicate 16 empty_slot), .repl⟩ false
        "/bin/sleep 9 &\n" 500 ⟨demo_reached, "[1] (500) /bin/sleep 9 &\n", [], none, none⟩
        rfl (by decide) (by decide) race_trace.1 rfl)
  have h2 : shell_reachable ⟨race_jobs, .repl⟩ :=
    shell_reachable.next _ _ h1
      (shell_step.command ⟨demo_reached, .repl⟩ false "/bin/sleep 8 &\n" 501
        ⟨race_jobs, "[2] (501) /bin/sleep 8 &\n", [], none, none⟩
        rfl (by decide) (by decide) race_trace.2.1 rfl)
  have h3 : shell_reachable ⟨race_ghost, .call_waitfg 0⟩ :=
    shell_reachable.next _ _ h2
      (shell_step.bgfg_reaped ⟨race_jobs, .repl⟩ "fg %1\n" "fg" "%1" [] [(500, .exited 0)]
        (some 0) (race_jobs.set 0 empty_slot) "" ⟨race_ghost, "", [(0, SIGCONT)], some 0⟩
        rfl race_trace.2.2.1 (Or.inl rfl) race_trace.2.2.2.1 race_trace.2.2.2.2.1
        race_trace.2.2.2.2.2.1)
  have h4 : shell_reachable ⟨race_ghost, .repl⟩ :=
    shell_reachable.next _ _ h3 (shell_step.enter ⟨race_ghost, .call_waitfg 0⟩ 0 400 rfl)
  have h5 : shell_reachable ⟨race_ghost_fg, .call_waitfg 501⟩ :=
    shell_reachable.next _ _ h4
      (shell_step.command ⟨race_ghost, .repl⟩ false "fg %2\n" 502
        ⟨race_ghost_fg, "", [(-501, SIGCONT)], some 501, none⟩
        rfl (by decide) (by decide) race_trace.2.2.2.2.2.2.2.1 rfl)
  have h6 : shell_reachable ⟨race_ghost_fg, .repl⟩ :=
    shell_reachable.next _ _ h5
      (shell_step.enter ⟨race_ghost_fg, .call_waitfg 501⟩ 501 501 rfl)
  exact shell_reachable.next _ _ h6
    (shell_step.command ⟨race_ghost_fg, .repl⟩ false "/bin/cat\n" 502
      ⟨race_two_fg, "", [], some 502, none⟩
      rfl (by decide) (by decide) race_trace.2.2.2.2.2.2.2.2.2 rfl)

/-- C4 (unique foreground), refuted by a run of the shell. The state with the job list
`race_two_fg` is reachable from the empty job list by steps of the shell (two background
launches, `fg %1` with the exit of child 500 reaped inside `do_bgfg`, `waitfg(0)`, `fg %2`,
`waitfg(501)`, a foreground launch), and in it the live jobs in slots 0 and 1 are both in
state FG. -/
theorem two_foreground_jobs_reachable :
    shell_reachable ⟨race_two_fg, .call_waitfg 502⟩ ∧
    race_two_fg[0]? = some ⟨502, 1, FG, "/bin/cat\n"⟩ ∧
    race_two_fg[1]? = some ⟨501, 2, FG, "/bin/sleep 8 &\n"⟩ ∧
    ¬ (∀ a b, ∀ ha : a < race_two_fg.length, ∀ hb : b < race_two_fg.length,
      race_two_fg[a].state = FG → race_two_fg[b].state = FG → a = b) :=
  ⟨race_two_fg_reachable, rfl, rfl,
    fun h => absurd (h 0 1 (by decide) (by decide) rfl rfl) (by decide)⟩

end Tsh
